import Mathlib

/-!
Verification development for the signaling core of the Nextcloud Spreed
standalone signaling server (files `api_signaling.go` and
`backend_configuration.go`).

Shallow embedding conventions:
* Go strings are modelled as `List Char` (abbreviated `Str`), so that every
  string operation used by the source (splitting on a byte, trimming,
  lower-casing, testing a leading piece) is a structural Lean function that
  the kernel can evaluate.
* Go's `map[string]T` is modelled as an association list with pairwise
  distinct keys (a Go map can never hold a key twice); `nil`-able pointers
  and slices become `Option`.
* A Go runtime panic is modelled by returning `none` from the function that
  panics; all functions that cannot panic are total.
* Functions of the Go standard library (`url.Parse`,
  `url.ParseRequestURI`, `json.Unmarshal`) are external collaborators and
  are taken as parameters of the operations that call them.
-/

/-- Go strings, byte-for-byte (the sources only ever use ASCII data in the
relevant operations, so a `Char` per byte is faithful). -/
abbrev Str := List Char

/-- Shorthand turning a Lean string literal into the `Str` model. -/
def str (s : String) : Str := s.data

/-- ASCII whitespace as recognised by `strings.TrimSpace` (the Go function
also strips non-ASCII Unicode spaces; the configuration data relevant here
is ASCII). -/
def isSpaceChar (c : Char) : Bool :=
  c = ' ' || c = '\t' || c = '\n' || c = '\r'

/-- `strings.TrimSpace`: drop whitespace from both ends. -/
def trimStr (s : Str) : Str :=
  ((s.dropWhile isSpaceChar).reverse.dropWhile isSpaceChar).reverse

/-- `strings.Split(s, ",")`: split on every comma; splitting the empty
string yields one empty field, exactly as in Go. -/
def splitComma : Str → List Str
  | [] => [[]]
  | c :: rest =>
    match splitComma rest with
    | [] => if c = ',' then [[], []] else [[c]]
    | t :: ts => if c = ',' then [] :: t :: ts else (c :: t) :: ts

/-- ASCII lower-casing of one character (`strings.ToLower` also maps
non-ASCII letters; the hostnames handled here are ASCII). -/
def lowerChar (c : Char) : Char :=
  if 'A' ≤ c ∧ c ≤ 'Z' then Char.ofNat (c.toNat + 32) else c

/-- `strings.ToLower` on the ASCII fragment. -/
def lowerStr (s : Str) : Str := s.map lowerChar

/-- `u[:strings.IndexByte(u, '/')]` when a slash occurs, else `u` itself:
everything before the first slash. -/
def beforeSlash (s : Str) : Str := s.takeWhile (fun c => c ≠ '/')

/-- The trailing-separator normalisation `if s[len(s)-1] != '/' { s += "/" }`
used both by the loader and by `GetBackend`.  (On the empty string the Go
code would panic on the out-of-range byte index; the callers either check
for emptiness first or receive the rendering of a parsed URL, which is
never empty, so the `[]` case below is never exercised by the embedded
claims.) -/
def ensureTrailingSlash (s : Str) : Str :=
  match s.getLast? with
  | some c => if c = '/' then s else s ++ ['/']
  | none => s ++ ['/']

/-- The part of a parsed Go `url.URL` that `backend_configuration.go`
consumes: `u.Host` and the rendering `u.String()`. -/
structure URL where
  host : Str
  rendered : Str
deriving DecidableEq

/-- `type Backend struct` from `backend_configuration.go`: id, origin url,
secret bytes, legacy-compat flag.  `reflect.DeepEqual` on two `*Backend`
compares the pointed-to structs field by field, which is exactly `=` on
this structure. -/
structure Backend where
  id : Str
  url : Str
  secret : Str
  compat : Bool
deriving DecidableEq

instance : Inhabited Backend := ⟨⟨[], [], [], false⟩⟩

/-- `type BackendConfiguration struct`: the host → entries map plus the
deprecated allow-all flag, common secret and compat backend. -/
structure BackendConfiguration where
  backends : List (Str × List Backend)
  allowAll : Bool
  commonSecret : Str
  compatBackend : Option Backend
deriving DecidableEq

/-- The loop body of `GetBackend`: first entry whose origin url is empty
(legacy host-only form) or whose stored origin url is a leading piece of
the normalised candidate `s`; `strings.HasPrefix(s, entry.url)`. -/
def findEntry (s : Str) : List Backend → Option Backend
  | [] => none
  | e :: rest =>
    if e.url = [] then some e
    else if e.url.isPrefixOf s then some e
    else findEntry s rest

/-- `BackendConfiguration.GetBackend`: look the candidate's host up in the
map; on a miss fall back to the compat backend iff allow-all is set; on a
hit normalise `u.String()` to a trailing slash and scan the host's entries
in stored order. -/
def getBackend (b : BackendConfiguration) (u : URL) : Option Backend :=
  match b.backends.lookup u.host with
  | none => if b.allowAll then b.compatBackend else none
  | some entries => findEntry (ensureTrailingSlash u.rendered) entries

/-- `BackendConfiguration.IsUrlAllowed`; a `nil` URL is rejected up front. -/
def isUrlAllowed (b : BackendConfiguration) (u : Option URL) : Bool :=
  match u with
  | none => false
  | some u => (getBackend b u).isSome

/-- `BackendConfiguration.GetSecret`; a `nil` URL or a failed resolution
yields the empty (`nil`) secret, modelled as `none`. -/
def getSecret (b : BackendConfiguration) (u : Option URL) : Option Str :=
  match u with
  | none => none
  | some u =>
    match getBackend b u with
    | none => none
    | some entry => some entry.secret

/-- One `[id]` configuration section: the `url` and `secret` keys.
`GetString` on a missing section or key returns the empty string, which the
model encodes by the lookup falling back to empty values. -/
structure BackendSection where
  url : Str
  secret : Str
deriving DecidableEq

/-- The slice of the `goconf.ConfigFile` that `backend_configuration.go`
reads: the `[backend]` keys `allowall`, `secret`, `backends`, `allowed`,
and one section per declared backend id. -/
structure Config where
  allowall : Bool
  secret : Str
  backendsRaw : Str
  allowedRaw : Str
  sections : List (Str × BackendSection)
deriving DecidableEq

/-- `config.GetString(id, "url")` with the error ignored: empty on a
missing section. -/
def sectionUrl (c : Config) (id : Str) : Str :=
  match c.sections.lookup id with
  | none => []
  | some s => s.url

/-- `config.GetString(id, "secret")` with the error ignored. -/
def sectionSecret (c : Config) (id : Str) : Str :=
  match c.sections.lookup id with
  | none => []
  | some s => s.secret

/-- `getConfiguredBackendIDs`: split the `backends` value on commas, trim
each id, drop empty ids, and collect into a set (`map[string]bool`); the
set is modelled by `List.dedup`.  Go then iterates the set in an arbitrary
order; the model fixes one order, which is immaterial to the claims. -/
def getConfiguredBackendIds (c : Config) : List Str :=
  (((splitComma c.backendsRaw).map trimStr).filter (fun id => id ≠ [])).dedup

/-- The body of the `getConfiguredHosts` loop for one id: skip the id when
its `url` is empty, append the trailing slash, parse the url (skipping the
id on a parse error), skip when the `secret` is empty, and otherwise build
the `Backend` keyed by the parsed host. -/
def mkBackendEntry (parse : Str → Option URL) (c : Config) (id : Str) :
    Option (Str × Backend) :=
  let u0 := sectionUrl c id
  if u0 = [] then none
  else
    let u := ensureTrailingSlash u0
    match parse u with
    | none => none
    | some parsed =>
      let secret := sectionSecret c id
      if u = [] ∨ secret = [] then none
      else some (parsed.host, { id := id, url := u, secret := secret, compat := false })

/-- `hosts[parsed.Host] = append(hosts[parsed.Host], backend)` for a pair
processed before all pairs already grouped: prepend to the host's list,
creating the host if absent. -/
def assocPrepend (m : List (Str × List Backend)) (h : Str) (b : Backend) :
    List (Str × List Backend) :=
  if (m.lookup h).isSome then
    m.map (fun p => if p.1 = h then (p.1, b :: p.2) else p)
  else (h, [b]) :: m

/-- Group the (host, backend) pairs into the host → entries map, keeping
the within-host order of the pair list. -/
def groupAppend : List (Str × Backend) → List (Str × List Backend)
  | [] => []
  | (h, b) :: rest => assocPrepend (groupAppend rest) h b

/-- `getConfiguredHosts`: the host → entries map built from the declared
backend ids. -/
def getConfiguredHosts (parse : Str → Option URL) (c : Config) :
    List (Str × List Backend) :=
  groupAppend ((getConfiguredBackendIds c).filterMap (mkBackendEntry parse c))

/-- The hostnames accepted by the legacy `allowed` branch of
`NewBackendConfiguration`: split on commas, trim, strip everything from
the first slash, drop empties, lower-case, and collect into a set. -/
def legacyHosts (c : Config) : List Str :=
  ((((splitComma c.allowedRaw).map (fun u => beforeSlash (trimStr u))).filter
      (fun u => u ≠ [])).map lowerStr).dedup

/-- `NewBackendConfiguration`: allow-all beats explicit `backends`, which
beats the legacy `allowed` list; each branch fixes the map, the flag, the
common secret and the compat backend. -/
def newBackendConfiguration (parse : Str → Option URL) (c : Config) :
    BackendConfiguration :=
  if c.allowall then
    { backends := []
      allowAll := true
      commonSecret := c.secret
      compatBackend := some { id := str "compat", url := [], secret := c.secret, compat := true } }
  else if c.backendsRaw ≠ [] then
    { backends := getConfiguredHosts parse c
      allowAll := false
      commonSecret := c.secret
      compatBackend := none }
  else if c.allowedRaw ≠ [] then
    let hosts := legacyHosts c
    if hosts = [] then
      { backends := [], allowAll := false, commonSecret := c.secret, compatBackend := none }
    else
      let compat : Backend :=
        { id := str "compat", url := [], secret := c.secret, compat := true }
      { backends := hosts.map (fun h => (h, [compat]))
        allowAll := false
        commonSecret := c.secret
        compatBackend := some compat }
  else
    { backends := [], allowAll := false, commonSecret := c.secret, compatBackend := none }

example : getBackend
    (newBackendConfiguration (fun _ => none)
      { allowall := false, secret := str "s", backendsRaw := [],
        allowedRaw := str "MyHost", sections := [] })
    { host := str "myhost", rendered := str "https://myhost/x" } =
    some { id := str "compat", url := [], secret := str "s", compat := true } := by
  decide

/-- The inner loop of `UpsertHost`: find the first entry of `bk` that is
`reflect.DeepEqual` to `x` and drop it, reporting `none` when no entry
matches (`found == false`). -/
def removeFirstEq (x : Backend) : List Backend → Option (List Backend)
  | [] => none
  | y :: ys => if x = y then some ys else (removeFirstEq x ys).map (y :: ·)

/-- The in-place effect on the backing array of
`append(S[:e], S[e+1:]...)` where `S = arr[:live]` is the live slice:
the live part loses its element at `e` (everything after it shifts one
slot left), while the array cells from `live-1` on keep their old
values.  The caller guarantees `e < live ≤ arr.length`; under that
guarantee the result again has `arr.length` cells and its first `live-1`
cells are the new live slice. -/
def removeShift (arr : List Backend) (e live : Nat) : List Backend :=
  ((arr.take live).take e ++ (arr.take live).drop (e + 1)) ++ arr.drop (live - 1)

/-- The `for existingIndex, existingBackend := range b.backends[host]`
loop of `UpsertHost`, operating on the backing array `arr` of the host's
slice.  The range clause is evaluated once, so the loop always runs
`fuel = (initial length) - i` more iterations and reads the array cell at
the iteration index even after the live slice has shrunk below it.  When
the entry is not found in `bk` the code rebuilds the slice as
`append(S[:i], S[i+1:]...)`; Go evaluates `S[i+1:]` with the default upper
bound `len(S) = live`, so if `live ≤ i` this is the slice expression
`S[i+1 : live]` with `i+1 > live` and the program panics with an
out-of-range slice bound — modelled by `none`. -/
def upsertLoop : Nat → Nat → List Backend → Nat → List Backend →
    Option (List Backend × Nat × List Backend)
  | 0, _, arr, live, bk => some (arr, live, bk)
  | fuel + 1, i, arr, live, bk =>
    match removeFirstEq (arr.getD i default) bk with
    | some bk2 => upsertLoop fuel (i + 1) arr live bk2
    | none =>
      if live ≤ i then none
      else upsertLoop fuel (i + 1) (removeShift arr i live) (live - 1) bk

/-- `BackendConfiguration.UpsertHost` for one host: run the loop over the
existing entries, then `b.backends[host] = append(b.backends[host],
backends...)` — the surviving live slice followed by the still-unmatched
new entries.  `none` is the slice-bounds panic. -/
def upsertHost (existing target : List Backend) : Option (List Backend) :=
  match upsertLoop existing.length 0 existing existing.length target with
  | none => none
  | some (arr, live, bk) => some (arr.take live ++ bk)

/-- `b.backends[host] = v`: replace the value when the key exists,
otherwise add the key. -/
def assocSet {β : Type} (m : List (Str × β)) (h : Str) (v : β) :
    List (Str × β) :=
  if (m.lookup h).isSome then
    m.map (fun p => if p.1 = h then (p.1, v) else p)
  else m ++ [(h, v)]

/-- The second `Reload` loop: `for hostname, configuredBackends := range
configuredHosts { b.UpsertHost(hostname, configuredBackends) }`, with the
panic of any single upsert aborting the whole reload. -/
def upsertAll (m : List (Str × List Backend)) :
    List (Str × List Backend) → Option (List (Str × List Backend))
  | [] => some m
  | (h, t) :: rest =>
    match upsertHost ((m.lookup h).getD []) t with
    | none => none
    | some r => upsertAll (assocSet m h r) rest

/-- `BackendConfiguration.Reload`: only when the snapshot's `backends`
key is non-empty, drop the hosts that are no longer configured
(`RemoveBackend`) and upsert every configured host; otherwise do
nothing.  Go iterates the two maps in arbitrary orders; the model fixes
the association-list orders, which does not affect any per-host content. -/
def reload (parse : Str → Option URL) (b : BackendConfiguration) (c : Config) :
    Option BackendConfiguration :=
  if c.backendsRaw ≠ [] then
    let cfg := getConfiguredHosts parse c
    let kept := b.backends.filter (fun p => ((cfg.lookup p.1).isSome : Bool))
    match upsertAll kept cfg with
    | none => none
    | some m => some { b with backends := m }
  else some b

example : upsertHost
    [⟨str "a", str "https://h/a/", str "sa", false⟩,
     ⟨str "b", str "https://h/b/", str "sb", false⟩]
    [⟨str "c", str "https://h/c/", str "sc", false⟩] = none := by decide

example : upsertHost
    [⟨str "a", str "https://h/a/", str "sa", false⟩]
    [⟨str "a", str "https://h/a/", str "sa", false⟩,
     ⟨str "c", str "https://h/c/", str "sc", false⟩] =
    some [⟨str "a", str "https://h/a/", str "sa", false⟩,
          ⟨str "c", str "https://h/c/", str "sc", false⟩] := by decide

/-- `HelloVersion = "1.0"`. -/
def HelloVersion : String := "1.0"

/-- `HelloClientTypeClient = "client"`. -/
def HelloClientTypeClient : String := "client"

/-- `HelloClientTypeInternal = "internal"`. -/
def HelloClientTypeInternal : String := "internal"

/-- `type ClientTypeInternalAuthParams struct`: the decoded internal-auth
parameters. -/
structure ClientTypeInternalAuthParams where
  random : String
  token : String
deriving DecidableEq

instance : Inhabited ClientTypeInternalAuthParams := ⟨⟨"", ""⟩⟩

/-- `type HelloClientMessageAuth struct`.  `params` is the
`*json.RawMessage` (`none` = `nil` pointer, the string = raw bytes);
`parsedUrl` and `internalParams` are the unexported cache fields that
`CheckValid` fills in. -/
structure HelloClientMessageAuth where
  type : String
  params : Option String
  url : String
  parsedUrl : Option URL
  internalParams : ClientTypeInternalAuthParams
deriving DecidableEq

/-- `type HelloClientMessage struct`. -/
structure HelloClientMessage where
  version : String
  resumeId : String
  features : List String
  auth : HelloClientMessageAuth
deriving DecidableEq

/-- `HelloClientMessage.CheckValid`, with `url.ParseRequestURI` and
`json.Unmarshal` passed in as the external collaborators they are.  The Go
method mutates its receiver (defaulting the auth type, caching the parsed
url and the decoded internal params); the model returns the updated
message together with the `error` result (`none` = valid). -/
def helloCheckValid (parseRequestURI : String → Except String URL)
    (unmarshalInternal : String → Except String ClientTypeInternalAuthParams)
    (m : HelloClientMessage) : HelloClientMessage × Option String :=
  if m.version ≠ HelloVersion then
    (m, some ("unsupported hello version: " ++ m.version))
  else if m.resumeId = "" then
    match m.auth.params with
    | none => (m, some "params missing")
    | some p =>
      if p = "" then (m, some "params missing")
      else
        let m1 :=
          if m.auth.type = "" then
            { m with auth := { m.auth with type := HelloClientTypeClient } }
          else m
        if m1.auth.type = HelloClientTypeClient then
          if m1.auth.url = "" then (m1, some "url missing")
          else
            match parseRequestURI m1.auth.url with
            | Except.error e => (m1, some e)
            | Except.ok u =>
              ({ m1 with auth := { m1.auth with parsedUrl := some u } }, none)
        else if m1.auth.type = HelloClientTypeInternal then
          match unmarshalInternal p with
          | Except.error e => (m1, some e)
          | Except.ok ip =>
            ({ m1 with auth := { m1.auth with internalParams := ip } }, none)
        else (m1, some "unsupported auth type")
  else (m, none)

/-- `type ByeClientMessage struct` (empty). -/
structure ByeClientMessage where
deriving DecidableEq

/-- `type RoomClientMessage struct`. -/
structure RoomClientMessage where
  roomId : String
  sessionId : String
deriving DecidableEq

/-- `RoomClientMessage.CheckValid`: no additional validation. -/
def roomCheckValid (_ : RoomClientMessage) : Option String := none

/-- `type MessageClientMessageRecipient struct`. -/
structure MessageClientMessageRecipient where
  type : String
  sessionId : String
  userId : String
deriving DecidableEq

/-- `type MessageClientMessage struct`; `data` is the required
`*json.RawMessage`. -/
structure MessageClientMessage where
  recipient : MessageClientMessageRecipient
  data : Option String
deriving DecidableEq

/-- `MessageClientMessage.CheckValid`: non-empty data, then the recipient
switch. -/
def messageCheckValid (m : MessageClientMessage) : Option String :=
  match m.data with
  | none => some "message empty"
  | some d =>
    if d = "" then some "message empty"
    else
      if m.recipient.type = "room" then none
      else if m.recipient.type = "session" then
        if m.recipient.sessionId = "" then some "session id missing" else none
      else if m.recipient.type = "user" then
        if m.recipient.userId = "" then some "user id missing" else none
      else some ("unsupported recipient type " ++ m.recipient.type)

/-- `type ControlClientMessage struct` embeds `MessageClientMessage`, and
its promoted `CheckValid` is the embedded one. -/
abbrev ControlClientMessage := MessageClientMessage

/-- `type ClientMessage struct`: the discriminator plus one optional
payload slot per known type. -/
structure ClientMessage where
  id : String
  type : String
  hello : Option HelloClientMessage
  bye : Option ByeClientMessage
  room : Option RoomClientMessage
  message : Option MessageClientMessage
  control : Option ControlClientMessage
deriving DecidableEq

/-- `ClientMessage.CheckValid`: the type switch; an unrecognised type
falls through to `nil`.  Like the hello validation it may update the
message (through the hello payload), so the model returns the updated
message with the error. -/
def clientCheckValid (parseRequestURI : String → Except String URL)
    (unmarshalInternal : String → Except String ClientTypeInternalAuthParams)
    (m : ClientMessage) : ClientMessage × Option String :=
  if m.type = "" then (m, some "type missing")
  else if m.type = "hello" then
    match m.hello with
    | none => (m, some "hello missing")
    | some h =>
      let r := helloCheckValid parseRequestURI unmarshalInternal h
      ({ m with hello := some r.1 }, r.2)
  else if m.type = "bye" then (m, none)
  else if m.type = "room" then
    match m.room with
    | none => (m, some "room missing")
    | some r => (m, roomCheckValid r)
  else if m.type = "message" then
    match m.message with
    | none => (m, some "message missing")
    | some x => (m, messageCheckValid x)
  else if m.type = "control" then
    match m.control with
    | none => (m, some "control missing")
    | some x => (m, messageCheckValid x)
  else (m, none)

/-- Specification-side resolution comparator, following the spec's words
for claim C1: an entry with an empty origin URL matches immediately;
otherwise an entry matches when its trailing-separator-normalised origin
URL is a leading piece of the (already normalised) candidate; the first
match in stored order wins, `none` when no entry matches. -/
def specResolveEntries (s : Str) : List Backend → Option Backend
  | [] => none
  | e :: rest =>
    if e.url = [] then some e
    else if (ensureTrailingSlash e.url).isPrefixOf s then some e
    else specResolveEntries s rest

/-- The compat backend built from a shared secret, as both compat-mode
branches of `NewBackendConfiguration` build it. -/
def compatOf (s : Str) : Backend :=
  { id := str "compat", url := [], secret := s, compat := true }

/-- Concrete explicit-mode backend `a` used by witnesses. -/
def beA : Backend := ⟨str "a", str "https://h/a/", str "sa", false⟩

/-- Concrete explicit-mode backend `b` used by witnesses. -/
def beB : Backend := ⟨str "b", str "https://h/b/", str "sb", false⟩

/-- Concrete explicit-mode backend `c` used by witnesses. -/
def beC : Backend := ⟨str "c", str "https://h/c/", str "sc", false⟩

/-- A concrete stand-in for `url.Parse` covering the URLs the witnesses
feed to the loaders. -/
def parseTable : Str → Option URL := fun s =>
  if s = str "https://h/a/" then some ⟨str "h", s⟩
  else if s = str "https://h/b/" then some ⟨str "h", s⟩
  else if s = str "https://h/c/" then some ⟨str "h", s⟩
  else if s = str "https://h/x/" then some ⟨str "h", s⟩
  else none

/-- A concrete stand-in for `url.ParseRequestURI` that accepts only
`https://x/`. -/
def parseReqX : String → Except String URL := fun s =>
  if s = "https://x/" then Except.ok ⟨str "x", str "https://x/"⟩
  else Except.error "invalid URI for request"

/-- A concrete stand-in for `url.ParseRequestURI` that always fails. -/
def parseReqErr : String → Except String URL := fun _ =>
  Except.error "invalid URI for request"

/-- A concrete stand-in for `json.Unmarshal` into the internal-auth shape
that always fails. -/
def unmarshalErr : String → Except String ClientTypeInternalAuthParams :=
  fun _ => Except.error "unexpected end of JSON input"

/-- Snapshot declaring allow-all mode only. -/
def cAllowAll : Config := ⟨true, str "s", [], [], []⟩

/-- Snapshot declaring one explicit backend `c` on host `h`. -/
def cBackendsC : Config :=
  ⟨false, str "s", str "c", [], [(str "c", ⟨str "https://h/c", str "sc"⟩)]⟩

/-- Snapshot declaring explicit backends `a` and `b` on host `h`. -/
def cBackendsAB : Config :=
  ⟨false, str "s", str "a,b", [],
    [(str "a", ⟨str "https://h/a", str "sa"⟩), (str "b", ⟨str "https://h/b", str "sb"⟩)]⟩

/-- Snapshot declaring one explicit backend `a` on host `h`. -/
def cBackendsA : Config :=
  ⟨false, str "s", str "a", [], [(str "a", ⟨str "https://h/a", str "sa"⟩)]⟩

/-- Snapshot that sets the allow-all flag and also lists explicit
backends: by construction priority it declares allow-all mode. -/
def cAllowAllB1 : Config :=
  ⟨true, str "s", str "b1", [], [(str "b1", ⟨str "https://h/x", str "sx"⟩)]⟩

/-- Snapshot declaring the legacy allow-list with the mixed-case hostname
`MyHost`. -/
def cLegacy : Config := ⟨false, str "s", [], str "MyHost", []⟩

/-- Candidate URL `https://h/y` on host `h`. -/
def uHy : URL := ⟨str "h", str "https://h/y"⟩

/-- Candidate URL `https://h/b/x` on host `h`. -/
def uHbx : URL := ⟨str "h", str "https://h/b/x"⟩

/-- Candidate URL on the mixed-case host `MyHost`. -/
def uMyHost : URL := ⟨str "MyHost", str "https://MyHost/"⟩

/-- Candidate URL on the lower-case host `myhost`. -/
def uLowerHost : URL := ⟨str "myhost", str "https://myhost/"⟩

/-- Candidate URL on a host unknown to every witness registry. -/
def uZ : URL := ⟨str "z", str "https://z/"⟩

/-- Registry constructed in allow-all mode. -/
def bAllowAll : BackendConfiguration := newBackendConfiguration parseTable cAllowAll

/-- Registry constructed in explicit mode from `cBackendsAB`: host `h`
holds the entries `a` then `b`. -/
def bAB : BackendConfiguration := newBackendConfiguration parseTable cBackendsAB

/-- Registry constructed in legacy mode from `cLegacy`. -/
def bLegacy : BackendConfiguration := newBackendConfiguration parseTable cLegacy

/-- An explicit registry state with two entries on host `h`, used by
witnesses. -/
def bW : BackendConfiguration := ⟨[(str "h", [beA, beB])], false, [], none⟩

/-- Hello auth sub-object with the empty (defaultable) auth kind and a
parseable client URL. -/
def auth9 : HelloClientMessageAuth := ⟨"", some "p", "https://x/", none, ⟨"", ""⟩⟩

/-- A valid client hello whose auth kind is empty. -/
def hello9 : HelloClientMessage := ⟨"1.0", "", [], auth9⟩

/-- A hello resuming a session, with junk auth data. -/
def helloResume : HelloClientMessage :=
  ⟨"1.0", "r1", [], ⟨"weird", none, "", none, ⟨"", ""⟩⟩⟩

/-- A hello with an unsupported protocol version. -/
def helloBadVer : HelloClientMessage := ⟨"2.0", "", [], auth9⟩

/-- A client message of type `hello` carrying `hello9`. -/
def cm9 : ClientMessage := ⟨"id1", "hello", some hello9, none, none, none, none⟩

/-- A valid message payload addressed to a session. -/
def msgOk : MessageClientMessage := ⟨⟨"session", "sess1", ""⟩, some "d"⟩

/-- A client message of type `message` carrying `msgOk`. -/
def cmMsg : ClientMessage := ⟨"", "message", none, none, none, some msgOk, none⟩

/-- The entry scan of `GetBackend` agrees with the spec-side scan on any
entry sequence whose origin URLs are already trailing-separator
normalised (which is how the loaders store them). -/
theorem findEntry_eq_spec (s : Str) (entries : List Backend)
    (hnorm : ∀ e ∈ entries, e.url = [] ∨ ensureTrailingSlash e.url = e.url) :
    findEntry s entries = specResolveEntries s entries := by
  induction entries with
  | nil => rfl
  | cons e rest ih =>
    have he := hnorm e (List.mem_cons_self e rest)
    have hrest : ∀ x ∈ rest, x.url = [] ∨ ensureTrailingSlash x.url = x.url := by
      intro x hx
      exact hnorm x (List.mem_cons_of_mem e hx)
    by_cases h0 : e.url = []
    · simp [findEntry, specResolveEntries, h0]
    · rcases he with he | he
      · exact absurd he h0
      · simp only [findEntry, specResolveEntries, if_neg h0, he]
        by_cases hp : e.url.isPrefixOf s
        · simp [hp]
        · simp [hp, ih hrest]

/-- Claim C1: for a URL whose host is present in the registry mapping and
whose entries carry loader-normalised origin URLs, `GetBackend` computes
exactly the spec-side first-match scan of the stored entry sequence on
the trailing-separator-normalised candidate: an empty origin URL matches
immediately, otherwise the first entry whose normalised origin URL is a
leading piece of the normalised candidate wins, and `none` is returned
when no entry matches. -/
theorem getBackend_first_match (b : BackendConfiguration) (u : URL)
    (entries : List Backend)
    (hfound : b.backends.lookup u.host = some entries)
    (hnorm : ∀ e ∈ entries, e.url = [] ∨ ensureTrailingSlash e.url = e.url) :
    getBackend b u = specResolveEntries (ensureTrailingSlash u.rendered) entries := by
  unfold getBackend
  rw [hfound]
  exact findEntry_eq_spec _ entries hnorm

/-- Witness for C1 at a concrete registry and URL. -/
theorem getBackend_first_match_witness :
    getBackend bW uHbx =
      specResolveEntries (ensureTrailingSlash uHbx.rendered) [beA, beB] :=
  getBackend_first_match bW uHbx [beA, beB] rfl (by decide)

/-- Claim C2, counterexample: a registry that is in allow-all mode (built
from an allow-all snapshot, so the flag is true and the compat backend
exists) but whose mapping was later populated by a reload resolves a
syntactically valid URL on the mapped host `h` to `none`, not to the
compat backend — the mapping's contents do matter under allow-all. -/
theorem allowAll_mapped_host_cex :
    (reload parseTable bAllowAll cBackendsC).map
        (fun b2 => (b2.allowAll, b2.compatBackend, getBackend b2 uHy)) =
      some (true, some (compatOf (str "s")), none) := by decide

/-- Claim C2, amended: under allow-all, a URL whose host is absent from
the mapping resolves to the compat backend (so at construction, where the
allow-all mapping is empty, every URL does); a URL whose host is present
is resolved against that host's entries only; and a null URL always fails
resolution and secret lookup. -/
theorem allowAll_resolution (b : BackendConfiguration) (u : URL) :
    (b.allowAll = true → b.backends.lookup u.host = none →
        getBackend b u = b.compatBackend) ∧
    (∀ (parse : Str → Option URL) (c : Config), c.allowall = true →
        getBackend (newBackendConfiguration parse c) u =
          (newBackendConfiguration parse c).compatBackend) ∧
    isUrlAllowed b none = false ∧ getSecret b none = none := by
  refine ⟨?_, ?_, rfl, rfl⟩
  · intro hall hmiss
    unfold getBackend
    rw [hmiss, hall]
    rfl
  · intro parse c hc
    unfold newBackendConfiguration
    rw [hc]
    rfl

/-- Witness for C2 (amended) at a concrete allow-all registry. -/
theorem allowAll_resolution_witness :
    getBackend bAllowAll uZ = bAllowAll.compatBackend ∧
    getBackend (newBackendConfiguration parseTable cAllowAll) uZ =
      (newBackendConfiguration parseTable cAllowAll).compatBackend ∧
    isUrlAllowed bAllowAll none = false ∧ getSecret bAllowAll none = none :=
  ⟨(allowAll_resolution bAllowAll uZ).1 rfl (by decide),
   (allowAll_resolution bAllowAll uZ).2.1 parseTable cAllowAll rfl,
   (allowAll_resolution bAllowAll uZ).2.2.1,
   (allowAll_resolution bAllowAll uZ).2.2.2⟩

/-- Claim C3: the failing input.  A registry built from the snapshot
declaring backends `a, b` on host `h` is reloaded with a snapshot
declaring only backend `c` on `h`: inside `UpsertHost` the loop removes
`a`, then re-reads the shifted array cell holding `b`, finds no match,
and evaluates the slice expression `S[existingIndex+1:]` with
`existingIndex+1 = 3` on a slice of length `2` — a runtime panic
(`slice bounds out of range`), modelled as `none`; the host's entry
sequence never becomes the target `[c]`. -/
theorem upsertHost_panics :
    upsertHost [beA, beB] [beC] = none ∧
    reload parseTable (newBackendConfiguration parseTable cBackendsAB) cBackendsC =
      none := by decide

/-- Claim C5: hello validation fails whenever the protocol version
differs from the supported constant, whatever the other fields are; and
with the supported version, a non-empty resume id makes validation
succeed immediately — the message is returned unchanged and no auth
check (params presence, url parse, unmarshal, auth kind) is consulted. -/
theorem helloCheckValid_version_resume
    (parse : String → Except String URL)
    (un : String → Except String ClientTypeInternalAuthParams)
    (m : HelloClientMessage) :
    (m.version ≠ HelloVersion → (helloCheckValid parse un m).2.isSome) ∧
    (m.version = HelloVersion → m.resumeId ≠ "" →
        helloCheckValid parse un m = (m, none)) := by
  constructor
  · intro hv
    simp [helloCheckValid, hv]
  · intro hv hr
    simp [helloCheckValid, hv, hr]

/-- Witness for C5: a wrong-version hello fails, a resuming hello with
junk auth data passes untouched. -/
theorem helloCheckValid_version_resume_witness :
    (helloCheckValid parseReqErr unmarshalErr helloBadVer).2.isSome ∧
    helloCheckValid parseReqErr unmarshalErr helloResume = (helloResume, none) :=
  ⟨(helloCheckValid_version_resume parseReqErr unmarshalErr helloBadVer).1 (by decide),
   (helloCheckValid_version_resume parseReqErr unmarshalErr helloResume).2 rfl (by decide)⟩

/-- Claim C6: for each of the five known message types, `CheckValid`
succeeds exactly when the required payload is present and passes its own
rule set (`bye` needs nothing, `room` has no further constraints), and
the message/control payload rule set is precisely: non-empty data blob
and a recipient kind in session/user/room with the matching non-empty
identifier. -/
theorem clientCheckValid_payload
    (parse : String → Except String URL)
    (un : String → Except String ClientTypeInternalAuthParams)
    (m : ClientMessage) :
    (m.type = "hello" → ((clientCheckValid parse un m).2 = none ↔
        ∃ h, m.hello = some h ∧ (helloCheckValid parse un h).2 = none)) ∧
    (m.type = "bye" → (clientCheckValid parse un m).2 = none) ∧
    (m.type = "room" → ((clientCheckValid parse un m).2 = none ↔
        ∃ r, m.room = some r ∧ roomCheckValid r = none)) ∧
    (m.type = "message" → ((clientCheckValid parse un m).2 = none ↔
        ∃ x, m.message = some x ∧ messageCheckValid x = none)) ∧
    (m.type = "control" → ((clientCheckValid parse un m).2 = none ↔
        ∃ x, m.control = some x ∧ messageCheckValid x = none)) ∧
    (∀ x : MessageClientMessage, messageCheckValid x = none ↔
        ∃ d, x.data = some d ∧ d ≠ "" ∧
          (x.recipient.type = "room" ∨
           (x.recipient.type = "session" ∧ x.recipient.sessionId ≠ "") ∨
           (x.recipient.type = "user" ∧ x.recipient.userId ≠ ""))) := by
  refine ⟨?_, ?_, ?_, ?_, ?_, ?_⟩
  · intro ht
    cases hh : m.hello with
    | none => simp [clientCheckValid, ht, hh]
    | some h => simp [clientCheckValid, ht, hh]
  · intro ht
    simp [clientCheckValid, ht]
  · intro ht
    cases hr : m.room with
    | none => simp [clientCheckValid, ht, hr]
    | some r => simp [clientCheckValid, ht, hr, roomCheckValid]
  · intro ht
    cases hx : m.message with
    | none => simp [clientCheckValid, ht, hx]
    | some x => simp [clientCheckValid, ht, hx]
  · intro ht
    cases hx : m.control with
    | none => simp [clientCheckValid, ht, hx]
    | some x => simp [clientCheckValid, ht, hx]
  · intro x
    cases hd : x.data with
    | none => simp [messageCheckValid, hd]
    | some d =>
      by_cases hde : d = ""
      · simp [messageCheckValid, hd, hde]
      · by_cases h1 : x.recipient.type = "room"
        · simp [messageCheckValid, hd, hde, h1]
        · by_cases h2 : x.recipient.type = "session"
          · by_cases hs : x.recipient.sessionId = "" <;>
              simp [messageCheckValid, hd, hde, h1, h2, hs]
          · by_cases h3 : x.recipient.type = "user"
            · by_cases hu : x.recipient.userId = "" <;>
                simp [messageCheckValid, hd, hde, h1, h2, h3, hu]
            · simp [messageCheckValid, hd, hde, h1, h2, h3]

/-- Witness for C6: a hello message with a valid payload passes, and the
concrete session-addressed message payload passes its rule set. -/
theorem clientCheckValid_payload_witness :
    ((clientCheckValid parseReqX unmarshalErr cm9).2 = none ↔
      ∃ h, cm9.hello = some h ∧ (helloCheckValid parseReqX unmarshalErr h).2 = none) ∧
    (clientCheckValid parseReqX unmarshalErr cmMsg).2 = none := by
  constructor
  · exact (clientCheckValid_payload parseReqX unmarshalErr cm9).1 rfl
  · exact ((clientCheckValid_payload parseReqX unmarshalErr cmMsg).2.2.2.1 rfl).mpr
      ⟨msgOk, rfl, by decide⟩

/-- Claim C7, counterexample: a snapshot that sets the allow-all flag
(and therefore declares allow-all mode, the highest-priority construction
mode) while also listing explicit backends does mutate the host mapping
under `Reload` — `Reload` keys on the `backends` value alone and ignores
the mode priority. -/
theorem reload_allowAll_mutates_cex :
    (newBackendConfiguration parseTable cAllowAllB1).allowAll = true ∧
    cAllowAllB1.allowall = true ∧
    (reload parseTable bAllowAll cAllowAllB1).map (fun b2 => b2.backends) =
      some [(str "h", [⟨str "b1", str "https://h/x/", str "sx", false⟩])] ∧
    bAllowAll.backends = [] := by decide

/-- Claim C7, amended: `Reload` mutates the mapping only when the
snapshot's `backends` key is non-empty; whenever that key is empty — as
in every pure allow-all or legacy allow-list snapshot — `Reload` leaves
the whole registry untouched. -/
theorem reload_noop_when_no_backends (parse : Str → Option URL)
    (b : BackendConfiguration) (c : Config) (h : c.backendsRaw = []) :
    reload parse b c = some b := by
  simp [reload, h]

/-- Witness for C7 (amended): reloading with a legacy snapshot is a
no-op. -/
theorem reload_noop_when_no_backends_witness :
    reload parseTable bAB cLegacy = some bAB :=
  reload_noop_when_no_backends parseTable bAB cLegacy rfl

/-- Claim C8, counterexample: the legacy loader lower-cases the allowed
hostname `MyHost` to `myhost`, but `GetBackend` looks the candidate's
host up verbatim — so the candidate on host `MyHost` does not resolve
(and is not allowed), while the lower-case spelling resolves to the
compat backend. -/
theorem host_case_mismatch_cex :
    getBackend bLegacy uMyHost = none ∧
    isUrlAllowed bLegacy (some uMyHost) = false ∧
    getBackend bLegacy uLowerHost = some (compatOf (str "s")) := by decide

/-- Witness-independent helper: looking a key up in a constant-valued map
built over a host list. -/
theorem lookup_map_const (hosts : List Str) (v : List Backend) (h : Str) :
    (hosts.map (fun x => (x, v))).lookup h =
      if h ∈ hosts then some v else none := by
  induction hosts with
  | nil => simp
  | cons x rest ih =>
    by_cases hx : h = x
    · simp [hx, List.lookup]
    · have : (h == x) = false := beq_false_of_ne hx
      simp [List.lookup, this, ih, hx]

/-- Claim C8, amended: in legacy mode the mapping keys are exactly the
lower-cased, trimmed, path-stripped allowed hostnames, and resolution
keys on the candidate URL's host verbatim: a URL resolves (to the compat
backend) precisely when its host equals one of those stored lower-cased
names — a case-differing spelling does not resolve. -/
theorem legacy_resolution_exact_host (parse : Str → Option URL) (c : Config)
    (u : URL) (h1 : c.allowall = false) (h2 : c.backendsRaw = []) :
    getBackend (newBackendConfiguration parse c) u =
      if u.host ∈ legacyHosts c then
        (newBackendConfiguration parse c).compatBackend
      else none := by
  have hhosts : c.allowedRaw = [] → legacyHosts c = [] := by
    intro h
    unfold legacyHosts
    rw [h]
    rfl
  by_cases h3 : c.allowedRaw = []
  · have hb : newBackendConfiguration parse c =
        { backends := [], allowAll := false, commonSecret := c.secret,
          compatBackend := none } := by
      unfold newBackendConfiguration
      rw [h1]
      simp [h2, h3]
    rw [hb, hhosts h3]
    simp [getBackend]
  · by_cases h4 : legacyHosts c = []
    · have hb : newBackendConfiguration parse c =
          { backends := [], allowAll := false, commonSecret := c.secret,
            compatBackend := none } := by
        unfold newBackendConfiguration
        rw [h1]
        simp [h2, h3, h4]
      rw [hb, h4]
      simp [getBackend]
    · have hb : newBackendConfiguration parse c =
          { backends := (legacyHosts c).map (fun h => (h, [compatOf c.secret])),
            allowAll := false, commonSecret := c.secret,
            compatBackend := some (compatOf c.secret) } := by
        unfold newBackendConfiguration compatOf
        rw [h1]
        simp [h2, h3, h4]
      rw [hb]
      unfold getBackend
      rw [lookup_map_const]
      by_cases h5 : u.host ∈ legacyHosts c
      · simp [h5, findEntry, compatOf]
      · simp [h5]

/-- Witness for C8 (amended): the lower-case spelling is in the legacy
host set and resolves to the compat backend. -/
theorem legacy_resolution_exact_host_witness :
    getBackend (newBackendConfiguration parseTable cLegacy) uLowerHost =
      if uLowerHost.host ∈ legacyHosts cLegacy then
        (newBackendConfiguration parseTable cLegacy).compatBackend
      else none :=
  legacy_resolution_exact_host parseTable cLegacy uLowerHost rfl rfl

/-- Claim C9, counterexample: validating a hello message whose auth kind
is empty mutates the message — `CheckValid` writes the defaulted kind
(and the cached parsed URL) back into the auth sub-object, so the
validated message differs from the input even though validation
succeeds. -/
theorem checkValid_mutates_cex :
    (clientCheckValid parseReqX unmarshalErr cm9).2 = none ∧
    (clientCheckValid parseReqX unmarshalErr cm9).1 ≠ cm9 ∧
    (helloCheckValid parseReqX unmarshalErr hello9).1.auth.type =
      HelloClientTypeClient ∧
    hello9.auth.type = "" := by decide

/-- The `client` auth-kind constant is not the empty string. -/
theorem clientType_ne_empty : HelloClientTypeClient ≠ "" := by decide

/-- The `internal` auth-kind constant is not the empty string. -/
theorem internalType_ne_empty : HelloClientTypeInternal ≠ "" := by decide

/-- The two auth-kind constants differ. -/
theorem internalType_ne_clientType :
    HelloClientTypeInternal ≠ HelloClientTypeClient := by decide

/-- Hello validation changes nothing but the auth-kind default and the
cached parse results: version, resume id, features, auth params and auth
url come out unchanged, and the auth kind is unchanged unless it was
empty and became `client`. -/
theorem helloCheckValid_frame (parse : String → Except String URL)
    (un : String → Except String ClientTypeInternalAuthParams)
    (m : HelloClientMessage) :
    (helloCheckValid parse un m).1.version = m.version ∧
    (helloCheckValid parse un m).1.resumeId = m.resumeId ∧
    (helloCheckValid parse un m).1.features = m.features ∧
    (helloCheckValid parse un m).1.auth.params = m.auth.params ∧
    (helloCheckValid parse un m).1.auth.url = m.auth.url ∧
    ((helloCheckValid parse un m).1.auth.type = m.auth.type ∨
      (m.auth.type = "" ∧
        (helloCheckValid parse un m).1.auth.type = HelloClientTypeClient)) := by
  unfold helloCheckValid
  by_cases hv : m.version ≠ HelloVersion
  · simp [hv]
  · by_cases hr : m.resumeId = ""
    · cases hp : m.auth.params with
      | none => simp [hv, hr, hp]
      | some p =>
        by_cases hpe : p = ""
        · simp [hv, hr, hp, hpe]
        · by_cases hty : m.auth.type = ""
          · by_cases hu : m.auth.url = ""
            · simp [hv, hr, hp, hpe, hty, hu]
            · cases hpu : parse m.auth.url with
              | error e => simp [hv, hr, hp, hpe, hty, hu, hpu]
              | ok uu => simp [hv, hr, hp, hpe, hty, hu, hpu]
          · by_cases hcl : m.auth.type = HelloClientTypeClient
            · by_cases hu : m.auth.url = ""
              · simp [hv, hr, hp, hpe, hty, hcl, hu, clientType_ne_empty]
              · cases hpu : parse m.auth.url with
                | error e =>
                  simp [hv, hr, hp, hpe, hty, hcl, hu, hpu, clientType_ne_empty]
                | ok uu =>
                  simp [hv, hr, hp, hpe, hty, hcl, hu, hpu, clientType_ne_empty]
            · by_cases hint : m.auth.type = HelloClientTypeInternal
              · cases hup : un p with
                | error e =>
                  simp [hv, hr, hp, hpe, hty, hcl, hint, hup, internalType_ne_empty,
                    internalType_ne_clientType]
                | ok ip =>
                  simp [hv, hr, hp, hpe, hty, hcl, hint, hup, internalType_ne_empty,
                    internalType_ne_clientType]
              · simp [hv, hr, hp, hpe, hty, hcl, hint]
    · simp [hv, hr]

/-- Claim C9, amended: validation's only observable effect besides its
result is filling the hello auth caches — at the envelope level every
field except the hello slot is unchanged and the hello slot is either
unchanged or replaced by its own validated copy; at the hello level only
the auth-kind default (empty becomes `client`) and the cached
parse/decode results can change; registry resolution takes the registry
as a pure input and returns a result without any way to change it, which
the embedding states by `getBackend` being a function of the registry
value. -/
theorem checkValid_frame (parse : String → Except String URL)
    (un : String → Except String ClientTypeInternalAuthParams)
    (m : ClientMessage) (hm : HelloClientMessage) :
    ((clientCheckValid parse un m).1.id = m.id ∧
     (clientCheckValid parse un m).1.type = m.type ∧
     (clientCheckValid parse un m).1.bye = m.bye ∧
     (clientCheckValid parse un m).1.room = m.room ∧
     (clientCheckValid parse un m).1.message = m.message ∧
     (clientCheckValid parse un m).1.control = m.control) ∧
    ((clientCheckValid parse un m).1.hello = m.hello ∨
      ∃ h, m.hello = some h ∧
        (clientCheckValid parse un m).1.hello =
          some (helloCheckValid parse un h).1) ∧
    ((helloCheckValid parse un hm).1.version = hm.version ∧
     (helloCheckValid parse un hm).1.resumeId = hm.resumeId ∧
     (helloCheckValid parse un hm).1.features = hm.features ∧
     (helloCheckValid parse un hm).1.auth.params = hm.auth.params ∧
     (helloCheckValid parse un hm).1.auth.url = hm.auth.url ∧
     ((helloCheckValid parse un hm).1.auth.type = hm.auth.type ∨
       (hm.auth.type = "" ∧
         (helloCheckValid parse un hm).1.auth.type = HelloClientTypeClient))) := by
  refine ⟨?_, ?_, helloCheckValid_frame parse un hm⟩
  · unfold clientCheckValid
    by_cases h0 : m.type = ""
    · simp [h0]
    · by_cases h1 : m.type = "hello"
      · cases hh : m.hello with
        | none => simp [h0, h1, hh]
        | some h => simp [h0, h1, hh]
      · by_cases h2 : m.type = "bye"
        · simp [h0, h1, h2]
        · by_cases h3 : m.type = "room"
          · cases hh : m.room with
            | none => simp [h0, h1, h2, h3, hh]
            | some r => simp [h0, h1, h2, h3, hh]
          · by_cases h4 : m.type = "message"
            · cases hh : m.message with
              | none => simp [h0, h1, h2, h3, h4, hh]
              | some x => simp [h0, h1, h2, h3, h4, hh]
            · by_cases h5 : m.type = "control"
              · cases hh : m.control with
                | none => simp [h0, h1, h2, h3, h4, h5, hh]
                | some x => simp [h0, h1, h2, h3, h4, h5, hh]
              · simp [h0, h1, h2, h3, h4, h5]
  · unfold clientCheckValid
    by_cases h0 : m.type = ""
    · simp [h0]
    · by_cases h1 : m.type = "hello"
      · cases hh : m.hello with
        | none => simp [h0, h1, hh]
        | some h =>
          right
          exact ⟨h, rfl, by simp [h0, h1, hh]⟩
      · by_cases h2 : m.type = "bye"
        · simp [h0, h1, h2]
        · by_cases h3 : m.type = "room"
          · cases hh : m.room with
            | none => simp [h0, h1, h2, h3, hh]
            | some r => simp [h0, h1, h2, h3, hh]
          · by_cases h4 : m.type = "message"
            · cases hh : m.message with
              | none => simp [h0, h1, h2, h3, h4, hh]
              | some x => simp [h0, h1, h2, h3, h4, hh]
            · by_cases h5 : m.type = "control"
              · cases hh : m.control with
                | none => simp [h0, h1, h2, h3, h4, h5, hh]
                | some x => simp [h0, h1, h2, h3, h4, h5, hh]
              · simp [h0, h1, h2, h3, h4, h5]

/-- Claim C10: whatever the snapshot and the starting state, a completed
reload changes nothing but the host mapping — the allow-all flag, the
common secret and the compat backend all survive. -/
theorem reload_preserves_mode (parse : Str → Option URL)
    (b : BackendConfiguration) (c : Config) (b2 : BackendConfiguration)
    (h : reload parse b c = some b2) :
    b2.allowAll = b.allowAll ∧ b2.commonSecret = b.commonSecret ∧
    b2.compatBackend = b.compatBackend := by
  simp only [reload] at h
  by_cases hc : c.backendsRaw ≠ []
  · rw [if_pos hc] at h
    split at h
    · exact absurd h (by simp)
    · injection h with h
      subst h
      exact ⟨rfl, rfl, rfl⟩
  · rw [if_neg hc] at h
    injection h with h
    subst h
    exact ⟨rfl, rfl, rfl⟩

/-- Witness for C10: a successful reload that populates the mapping of an
allow-all registry keeps its flag, secret and compat backend. -/
theorem reload_preserves_mode_witness :
    (⟨[(str "h", [beC])], true, str "s", some (compatOf (str "s"))⟩ :
        BackendConfiguration).allowAll = bAllowAll.allowAll ∧
    (⟨[(str "h", [beC])], true, str "s", some (compatOf (str "s"))⟩ :
        BackendConfiguration).commonSecret = bAllowAll.commonSecret ∧
    (⟨[(str "h", [beC])], true, str "s", some (compatOf (str "s"))⟩ :
        BackendConfiguration).compatBackend = bAllowAll.compatBackend :=
  reload_preserves_mode parseTable bAllowAll cBackendsC _ (by decide)

/-- Reading through `drop` shifts the index. -/
theorem getD_drop_add {α : Type} (l : List α) (n m : Nat) (d : α) :
    (l.drop n).getD m d = l.getD (n + m) d := by
  induction n generalizing l with
  | zero => simp
  | succ k ih =>
    cases l with
    | nil => simp
    | cons x xs =>
      have : k + 1 + m = (k + m) + 1 := by omega
      simp [ih xs, this]

/-- Reading inside the left part of an append. -/
theorem getD_append_left {α : Type} (l₁ l₂ : List α) (n : Nat) (d : α)
    (h : n < l₁.length) : (l₁ ++ l₂).getD n d = l₁.getD n d := by
  induction l₁ generalizing n with
  | nil => simp at h
  | cons x xs ih =>
    cases n with
    | zero => simp
    | succ k =>
      have hk : k < xs.length := by simpa using h
      rw [List.cons_append, List.getD_cons_succ, List.getD_cons_succ]
      exact ih k hk

/-- Reading inside the right part of an append. -/
theorem getD_append_right {α : Type} (l₁ l₂ : List α) (m : Nat) (d : α) :
    (l₁ ++ l₂).getD (l₁.length + m) d = l₂.getD m d := by
  induction l₁ with
  | nil => simp
  | cons x xs ih =>
    have : xs.length + 1 + m = (xs.length + m) + 1 := by omega
    simp only [List.cons_append, List.length_cons, this, List.getD_cons_succ]
    exact ih

/-- Reading inside a `take`. -/
theorem getD_take {α : Type} (l : List α) (n m : Nat) (d : α) (h : m < n) :
    (l.take n).getD m d = l.getD m d := by
  induction l generalizing n m with
  | nil => simp
  | cons x xs ih =>
    cases n with
    | zero => omega
    | succ k =>
      cases m with
      | zero => simp
      | succ j =>
        have hk : j < k := by omega
        rw [List.take_succ_cons, List.getD_cons_succ, List.getD_cons_succ]
        exact ih k j hk

/-- Reading inside the right part of an append, subtraction form. -/
theorem getD_append_sub {α : Type} (l₁ l₂ : List α) (n : Nat) (d : α)
    (h : l₁.length ≤ n) :
    (l₁ ++ l₂).getD n d = l₂.getD (n - l₁.length) d := by
  have h2 := getD_append_right l₁ l₂ (n - l₁.length) d
  rw [Nat.add_sub_cancel' h] at h2
  exact h2

/-- `take` of one more element appends the cell at the old boundary. -/
theorem take_succ_getD {α : Type} (l : List α) (i : Nat) (d : α)
    (h : i < l.length) : l.take (i + 1) = l.take i ++ [l.getD i d] := by
  induction l generalizing i with
  | nil => simp at h
  | cons x xs ih =>
    cases i with
    | zero => simp
    | succ k =>
      have : k < xs.length := by simpa using h
      simp [ih k this]

/-- `drop` exposes the cell at its boundary. -/
theorem drop_eq_getD_cons {α : Type} (l : List α) (i : Nat) (d : α)
    (h : i < l.length) : l.drop i = l.getD i d :: l.drop (i + 1) := by
  induction l generalizing i with
  | nil => simp at h
  | cons x xs ih =>
    cases i with
    | zero => simp
    | succ k =>
      have : k < xs.length := by simpa using h
      simp [ih k this]

/-- `removeFirstEq` fails exactly when the entry occurs nowhere. -/
theorem removeFirstEq_eq_none (x : Backend) (l : List Backend) :
    removeFirstEq x l = none ↔ x ∉ l := by
  induction l with
  | nil => simp [removeFirstEq]
  | cons y ys ih =>
    by_cases h : x = y
    · simp [removeFirstEq, h]
    · simp [removeFirstEq, h, ih]

/-- On a hit, `removeFirstEq` removes exactly the first equal entry. -/
theorem removeFirstEq_of_mem {x : Backend} {l : List Backend} (h : x ∈ l) :
    removeFirstEq x l = some (l.erase x) := by
  induction l with
  | nil => cases h
  | cons y ys ih =>
    by_cases hxy : x = y
    · subst hxy
      simp [removeFirstEq, List.erase_cons_head]
    · have hmem : x ∈ ys := by
        rcases List.mem_cons.mp h with h1 | h1
        · exact absurd h1 hxy
        · exact h1
      have hbeq : (y == x) = false := beq_false_of_ne (Ne.symm hxy)
      simp [removeFirstEq, hxy, ih hmem, List.erase_cons_tail, hbeq]

/-- The backing array keeps its size across an in-place removal. -/
theorem removeShift_length (arr : List Backend) (e live : Nat)
    (he : e < live) (hl : live ≤ arr.length) :
    (removeShift arr e live).length = arr.length := by
  unfold removeShift
  simp only [List.length_append, List.length_take, List.length_drop]
  omega

/-- The cells from `live - 1` on are untouched by the removal. -/
theorem removeShift_drop (arr : List Backend) (e live : Nat)
    (he : e < live) (hl : live ≤ arr.length) :
    (removeShift arr e live).drop (live - 1) = arr.drop (live - 1) := by
  unfold removeShift
  have hlen : ((arr.take live).take e ++ (arr.take live).drop (e + 1)).length
      = live - 1 := by
    simp only [List.length_append, List.length_take, List.length_drop]
    omega
  rw [← hlen, List.drop_left]

/-- Reading any cell at or beyond `live - 1` after the removal. -/
theorem removeShift_getD_high (arr : List Backend) (e live j : Nat) (d : Backend)
    (he : e < live) (hl : live ≤ arr.length) (hj : live - 1 ≤ j) :
    (removeShift arr e live).getD j d = arr.getD j d := by
  have h1 := removeShift_drop arr e live he hl
  have h2 : (live - 1) + (j - (live - 1)) = j := by omega
  have h3 := getD_drop_add (removeShift arr e live) (live - 1) (j - (live - 1)) d
  have h4 := getD_drop_add arr (live - 1) (j - (live - 1)) d
  rw [h1] at h3
  rw [h2] at h3 h4
  rw [← h3, h4]

/-- After a removal at `e ≤ live - 2`, the last live cell (`live - 2`)
holds what the cell `live - 1` held before. -/
theorem removeShift_getD_twin (arr : List Backend) (e live : Nat) (d : Backend)
    (he : e + 1 < live) (hl : live ≤ arr.length) :
    (removeShift arr e live).getD (live - 2) d = arr.getD (live - 1) d := by
  unfold removeShift
  have hAlen : ((arr.take live).take e).length = e := by
    simp
    omega
  have hABlen : ((arr.take live).take e ++ (arr.take live).drop (e + 1)).length
      = live - 1 := by
    simp only [List.length_append, List.length_take, List.length_drop]
    omega
  rw [getD_append_left _ _ _ _ (by rw [hABlen]; omega)]
  rw [getD_append_sub _ _ _ _ (by rw [hAlen]; omega)]
  rw [hAlen, getD_drop_add]
  have h3 : e + 1 + (live - 2 - e) = live - 1 := by omega
  rw [h3, getD_take _ _ _ _ (by omega)]

/-- The live slice after a removal strictly inside it starts with the old
prefix followed by the skipped cell (`e + 1` shifts onto position `e`). -/
theorem removeShift_take_succ (arr : List Backend) (i live : Nat) (d : Backend)
    (h : i + 1 < live) (hl : live ≤ arr.length) :
    (removeShift arr i live).take (i + 1) = arr.take i ++ [arr.getD (i + 1) d] := by
  unfold removeShift
  have hAlen : ((arr.take live).take i).length = i := by
    simp
    omega
  have hBlen : ((arr.take live).drop (i + 1)).length = live - i - 1 := by
    simp
    omega
  have hABlen : ((arr.take live).take i ++ (arr.take live).drop (i + 1)).length
      = live - 1 := by
    rw [List.length_append, hAlen, hBlen]
    omega
  rw [List.take_append_eq_append_take]
  have hz : i + 1 -
      ((arr.take live).take i ++ (arr.take live).drop (i + 1)).length = 0 := by
    rw [hABlen]
    omega
  rw [hz, List.take_zero, List.append_nil]
  rw [List.take_append_eq_append_take]
  have e1 : ((arr.take live).take i).take (i + 1) = (arr.take live).take i :=
    List.take_of_length_le (by rw [hAlen]; omega)
  have e2 : i + 1 - ((arr.take live).take i).length = 1 := by
    rw [hAlen]
    omega
  have e3 : (arr.take live).take i = arr.take i := by
    rw [List.take_take]
    congr 1
    omega
  rw [e1, e2, e3]
  congr 1
  have hB0 : ((arr.take live).drop (i + 1)).getD 0 d = arr.getD (i + 1) d := by
    rw [getD_drop_add, Nat.add_zero, getD_take _ _ _ _ (by omega)]
  rw [take_succ_getD _ 0 d (by rw [hBlen]; omega), List.take_zero,
    List.nil_append, hB0]

/-- Removing the last live cell leaves the backing array unchanged (the
shift range is empty and the trailing cells are untouched). -/
theorem removeShift_last (arr : List Backend) (live : Nat)
    (hl : live ≤ arr.length) (h : 0 < live) :
    removeShift arr (live - 1) live = arr := by
  unfold removeShift
  have hSlen : (arr.take live).length = live := by
    simp
    omega
  have e1 : (arr.take live).drop (live - 1 + 1) = [] := by
    apply List.drop_eq_nil_of_le
    omega
  have e2 : (arr.take live).take (live - 1) = arr.take (live - 1) := by
    rw [List.take_take]
    congr 1
    omega
  rw [e1, e2, List.append_nil, List.take_append_drop]

/-- Doom lemma: if some still-to-be-visited cell `j` lies at or beyond the
live boundary and its entry no longer occurs in the remaining new-entry
list, the loop is certain to panic — the cell is read in a later
iteration, fails to match (`bk` only ever shrinks), and triggers the
out-of-range slice rebuild. -/
theorem upsertLoop_doom (fuel : Nat) :
    ∀ (i : Nat) (arr : List Backend) (live : Nat) (bk : List Backend) (j : Nat),
      fuel + i = arr.length → i ≤ j → live ≤ j → j < arr.length →
      arr.getD j default ∉ bk →
      upsertLoop fuel i arr live bk = none := by
  induction fuel with
  | zero =>
    intro i arr live bk j hfi hij hlj hj hmem
    omega
  | succ f ih =>
    intro i arr live bk j hfi hij hlj hj hmem
    simp only [upsertLoop]
    cases hrm : removeFirstEq (arr.getD i default) bk with
    | some bk2 =>
      have hx : arr.getD i default ∈ bk := by
        by_contra hxn
        rw [(removeFirstEq_eq_none _ _).mpr hxn] at hrm
        cases hrm
      have hbk2 : bk2 = bk.erase (arr.getD i default) := by
        rw [removeFirstEq_of_mem hx] at hrm
        injection hrm with h
        exact h.symm
      have hne : i ≠ j := by
        intro he
        exact hmem (he ▸ hx)
      show upsertLoop f (i + 1) arr live bk2 = none
      apply ih (i + 1) arr live bk2 j (by omega) (by omega) hlj hj
      rw [hbk2]
      intro hc
      exact hmem (List.mem_of_mem_erase hc)
    | none =>
      by_cases hli : live ≤ i
      · simp [hli]
      · rw [if_neg hli]
        show upsertLoop f (i + 1) (removeShift arr i live) (live - 1) bk = none
        have hlen := removeShift_length arr i live (by omega) (by omega)
        apply ih (i + 1) (removeShift arr i live) (live - 1) bk j
        · omega
        · omega
        · omega
        · omega
        · rw [removeShift_getD_high arr i live j default (by omega) (by omega) (by omega)]
          exact hmem

/-- Doom lemma: two distinct still-to-be-visited cells at or beyond the
live boundary holding equal entries force a panic when the remaining
new-entry list has no duplicates — at most one of them can match. -/
theorem upsertLoop_doom2 (fuel : Nat) :
    ∀ (i : Nat) (arr : List Backend) (live : Nat) (bk : List Backend) (j k : Nat),
      fuel + i = arr.length → bk.Nodup → i ≤ j → live ≤ j → j < k →
      k < arr.length → arr.getD j default = arr.getD k default →
      upsertLoop fuel i arr live bk = none := by
  induction fuel with
  | zero =>
    intro i arr live bk j k hfi hnd hij hlj hjk hk heq
    omega
  | succ f ih =>
    intro i arr live bk j k hfi hnd hij hlj hjk hk heq
    simp only [upsertLoop]
    cases hrm : removeFirstEq (arr.getD i default) bk with
    | some bk2 =>
      have hx : arr.getD i default ∈ bk := by
        by_contra hxn
        rw [(removeFirstEq_eq_none _ _).mpr hxn] at hrm
        cases hrm
      have hbk2 : bk2 = bk.erase (arr.getD i default) := by
        rw [removeFirstEq_of_mem hx] at hrm
        injection hrm with h
        exact h.symm
      show upsertLoop f (i + 1) arr live bk2 = none
      by_cases hijeq : i = j
      · -- the first of the two equal cells just matched; the second can
        -- never match again
        apply upsertLoop_doom f (i + 1) arr live bk2 k (by omega) (by omega)
          (by omega) hk
        rw [hbk2, ← heq, hijeq]
        intro hc
        have hcount : List.count (arr.getD j default) bk ≤ 1 :=
          List.nodup_iff_count_le_one.mp hnd _
        have hcount2 :
            List.count (arr.getD j default) (bk.erase (arr.getD j default)) = 0 := by
          rw [List.count_erase_self]
          omega
        rw [← List.count_pos_iff] at hc
        omega
      · apply ih (i + 1) arr live bk2 j k (by omega) (hbk2 ▸ hnd.erase _)
          (by omega) hlj hjk hk heq
    | none =>
      by_cases hli : live ≤ i
      · simp [hli]
      · rw [if_neg hli]
        show upsertLoop f (i + 1) (removeShift arr i live) (live - 1) bk = none
        have hlen := removeShift_length arr i live (by omega) (by omega)
        apply ih (i + 1) (removeShift arr i live) (live - 1) bk j k (by omega)
          hnd (by omega) (by omega) hjk (by omega)
        rw [removeShift_getD_high arr i live j default (by omega) (by omega) (by omega),
          removeShift_getD_high arr i live k default (by omega) (by omega) (by omega)]
        exact heq

/-- Doom lemma: if the last live cell's entry also sits in a
still-to-be-visited cell at or beyond the live boundary, the loop is
doomed (with duplicate-free `bk`): either the last live cell matches and
strands its garbage copy, or it fails and both strand, or it is skipped
by a removal at `live - 2`, which itself duplicates the entry into the
garbage region. -/
theorem upsertLoop_doom3 (fuel : Nat) :
    ∀ (i : Nat) (arr : List Backend) (live : Nat) (bk : List Backend) (j : Nat),
      fuel + i = arr.length → bk.Nodup → i < live → live ≤ j →
      j < arr.length → arr.getD (live - 1) default = arr.getD j default →
      upsertLoop fuel i arr live bk = none := by
  induction fuel with
  | zero =>
    intro i arr live bk j hfi hnd hil hlj hj heq
    omega
  | succ f ih =>
    intro i arr live bk j hfi hnd hil hlj hj heq
    simp only [upsertLoop]
    cases hrm : removeFirstEq (arr.getD i default) bk with
    | some bk2 =>
      have hx : arr.getD i default ∈ bk := by
        by_contra hxn
        rw [(removeFirstEq_eq_none _ _).mpr hxn] at hrm
        cases hrm
      have hbk2 : bk2 = bk.erase (arr.getD i default) := by
        rw [removeFirstEq_of_mem hx] at hrm
        injection hrm with h
        exact h.symm
      show upsertLoop f (i + 1) arr live bk2 = none
      by_cases hil2 : i + 1 < live
      · exact ih (i + 1) arr live bk2 j (by omega) (hbk2 ▸ hnd.erase _) hil2
          hlj hj heq
      · -- i = live - 1: the matched entry is the shared one
        have hi : i = live - 1 := by omega
        apply upsertLoop_doom f (i + 1) arr live bk2 j (by omega) (by omega)
          hlj hj
        rw [hbk2, ← heq, ← hi]
        intro hc
        have hcount : List.count (arr.getD i default) bk ≤ 1 :=
          List.nodup_iff_count_le_one.mp hnd _
        have hcount2 :
            List.count (arr.getD i default) (bk.erase (arr.getD i default)) = 0 := by
          rw [List.count_erase_self]
          omega
        rw [← List.count_pos_iff] at hc
        omega
    | none =>
      rw [if_neg (by omega : ¬ live ≤ i)]
      show upsertLoop f (i + 1) (removeShift arr i live) (live - 1) bk = none
      have hlen := removeShift_length arr i live (by omega) (by omega)
      by_cases h1 : i + 1 < live - 1
      · -- removal strictly inside: the shared entry shifts onto the new
        -- last live cell, the garbage copy stays put
        apply ih (i + 1) (removeShift arr i live) (live - 1) bk j (by omega)
          hnd h1 (by omega) (by omega)
        have e1 : live - 1 - 1 = live - 2 := by omega
        rw [e1, removeShift_getD_twin arr i live default (by omega) (by omega),
          removeShift_getD_high arr i live j default (by omega) (by omega) (by omega)]
        exact heq
      · by_cases h2 : i + 1 = live - 1
        · -- removal at live - 2: the old cell live - 1 is now garbage and
          -- still holds the shared entry, as does cell j
          apply upsertLoop_doom2 f (i + 1) (removeShift arr i live) (live - 1)
            bk (live - 1) j (by omega) hnd (by omega) (by omega) (by omega)
            (by omega)
          rw [removeShift_getD_high arr i live (live - 1) default (by omega)
              (by omega) (by omega),
            removeShift_getD_high arr i live j default (by omega) (by omega)
              (by omega)]
          exact heq
        · -- i = live - 1: the last live cell itself failed to match, and
          -- its garbage twin at j can never match either
          have hi : i = live - 1 := by omega
          have hnotmem : arr.getD i default ∉ bk := by
            rw [removeFirstEq_eq_none] at hrm
            exact hrm
          apply upsertLoop_doom f (i + 1) (removeShift arr i live) (live - 1)
            bk j (by omega) (by omega) (by omega) (by omega)
          rw [removeShift_getD_high arr i live j default (by omega) (by omega)
            (by omega), ← heq, ← hi]
          exact hnotmem

open List in
/-- Conservation law of the upsert loop: on a successful run (with
duplicate-free new entries), the final host slice plus the leftover new
entries, together with the still-to-be-visited garbage cells, is a
permutation of the already-settled prefix plus the remaining new
entries.  Every removal in a successful run happens at the last or
second-to-last live position (anything deeper is doomed by
`upsertLoop_doom3`), and in those cases the skipped cell and the newly
stranded garbage cell hold the same entry, which keeps the law exact. -/
theorem upsertLoop_perm (fuel : Nat) :
    ∀ (i : Nat) (arr : List Backend) (live : Nat) (bk : List Backend)
      (arrF : List Backend) (liveF : Nat) (bkF : List Backend),
      fuel + i = arr.length → live ≤ arr.length → bk.Nodup →
      upsertLoop fuel i arr live bk = some (arrF, liveF, bkF) →
      (arrF.take liveF ++ bkF) ++ arr.drop (max i live) ~
        arr.take (min i live) ++ bk := by
  induction fuel with
  | zero =>
    intro i arr live bk arrF liveF bkF hfi hl hnd hrun
    have hi : i = arr.length := by omega
    simp only [upsertLoop, Option.some.injEq, Prod.mk.injEq] at hrun
    obtain ⟨ha, hb, hc⟩ := hrun
    subst ha hb hc
    have hmax : max i live = i := by omega
    have hmin : min i live = live := by omega
    rw [hmax, hmin, hi, List.drop_length, List.append_nil]
  | succ f ih =>
    intro i arr live bk arrF liveF bkF hfi hl hnd hrun
    have hi : i < arr.length := by omega
    simp only [upsertLoop] at hrun
    cases hrm : removeFirstEq (arr.getD i default) bk with
    | some bk2 =>
      rw [hrm] at hrun
      have hx : arr.getD i default ∈ bk := by
        by_contra hxn
        rw [(removeFirstEq_eq_none _ _).mpr hxn] at hrm
        cases hrm
      have hbk2 : bk2 = bk.erase (arr.getD i default) := by
        rw [removeFirstEq_of_mem hx] at hrm
        injection hrm with h
        exact h.symm
      have hperm : bk ~ arr.getD i default :: bk2 := by
        rw [hbk2]
        exact List.perm_cons_erase hx
      have ih' := ih (i + 1) arr live bk2 arrF liveF bkF (by omega) hl
        (hbk2 ▸ hnd.erase _) hrun
      by_cases hil : i < live
      · have hmax1 : max (i + 1) live = live := by omega
        have hmax0 : max i live = live := by omega
        have hmin1 : min (i + 1) live = i + 1 := by omega
        have hmin0 : min i live = i := by omega
        rw [hmax1, hmin1, take_succ_getD arr i default hi] at ih'
        rw [hmax0, hmin0]
        calc (arrF.take liveF ++ bkF) ++ arr.drop live
            ~ (arr.take i ++ [arr.getD i default]) ++ bk2 := ih'
          _ = arr.take i ++ (arr.getD i default :: bk2) := by
              rw [List.append_assoc]
              rfl
          _ ~ arr.take i ++ bk := List.Perm.append_left _ hperm.symm
      · have hmax1 : max (i + 1) live = i + 1 := by omega
        have hmax0 : max i live = i := by omega
        have hmin1 : min (i + 1) live = live := by omega
        have hmin0 : min i live = live := by omega
        rw [hmax1, hmin1] at ih'
        rw [hmax0, hmin0, drop_eq_getD_cons arr i default hi]
        calc (arrF.take liveF ++ bkF) ++ (arr.getD i default :: arr.drop (i + 1))
            ~ arr.getD i default :: ((arrF.take liveF ++ bkF) ++ arr.drop (i + 1)) :=
              List.perm_middle
          _ ~ arr.getD i default :: (arr.take live ++ bk2) := ih'.cons _
          _ ~ arr.take live ++ (arr.getD i default :: bk2) := List.perm_middle.symm
          _ ~ arr.take live ++ bk := List.Perm.append_left _ hperm.symm
    | none =>
      rw [hrm] at hrun
      by_cases hli : live ≤ i
      · rw [if_pos hli] at hrun
        cases hrun
      · rw [if_neg hli] at hrun
        by_cases h1 : i + 1 = live
        · -- removal of the very last live cell: array unchanged, the cell
          -- just falls off the live slice
          have hrs : removeShift arr i live = arr := by
            have hieq : i = live - 1 := by omega
            rw [hieq]
            exact removeShift_last arr live hl (by omega)
          rw [hrs] at hrun
          have ih' := ih (i + 1) arr (live - 1) bk arrF liveF bkF (by omega)
            (by omega) hnd hrun
          have e1 : min (i + 1) (live - 1) = min i live := by omega
          have e2 : max (i + 1) (live - 1) = max i live := by omega
          rw [e1, e2] at ih'
          exact ih'
        · by_cases h2 : i + 2 = live
          · -- removal at live - 2: the skipped cell and the new garbage
            -- cell both hold the entry that was at live - 1
            have hlen := removeShift_length arr i live (by omega) (by omega)
            have ih' := ih (i + 1) (removeShift arr i live) (live - 1) bk arrF
              liveF bkF (by omega) (by omega) hnd hrun
            have hmin' : min (i + 1) (live - 1) = i + 1 := by omega
            have hmax' : max (i + 1) (live - 1) = live - 1 := by omega
            rw [hmin', hmax'] at ih'
            rw [removeShift_take_succ arr i live default (by omega) hl,
              removeShift_drop arr i live (by omega) hl] at ih'
            have hdropB : arr.drop (live - 1) =
                arr.getD (live - 1) default :: arr.drop live := by
              rw [drop_eq_getD_cons arr (live - 1) default (by omega)]
              congr 2
              omega
            have hgd : arr.getD (i + 1) default = arr.getD (live - 1) default := by
              congr 1
              omega
            rw [hdropB, hgd] at ih'
            have hmaxg : max i live = live := by omega
            have hming : min i live = i := by omega
            rw [hmaxg, hming]
            have l1 : (arrF.take liveF ++ bkF) ++
                (arr.getD (live - 1) default :: arr.drop live) ~
                arr.getD (live - 1) default ::
                  ((arrF.take liveF ++ bkF) ++ arr.drop live) := List.perm_middle
            have l2 : (arr.take i ++ [arr.getD (live - 1) default]) ++ bk ~
                arr.getD (live - 1) default :: (arr.take i ++ bk) := by
              rw [List.append_assoc]
              exact List.perm_middle
            exact (l1.symm.trans (ih'.trans l2)).cons_inv
          · -- removal strictly inside the live slice: doomed, so this
            -- branch contradicts the success hypothesis
            exfalso
            have hlen := removeShift_length arr i live (by omega) (by omega)
            have hnone := upsertLoop_doom3 f (i + 1) (removeShift arr i live)
              (live - 1) bk (live - 1) (by omega) hnd (by omega) (by omega)
              (by omega) (by
                have e1 : live - 1 - 1 = live - 2 := by omega
                rw [e1, removeShift_getD_twin arr i live default (by omega)
                    (by omega),
                  removeShift_getD_high arr i live (live - 1) default (by omega)
                    (by omega) (by omega)])
            rw [hnone] at hrun
            cases hrun

open List in
/-- A completed `UpsertHost` leaves the host's entry list a permutation
of the (duplicate-free) target list. -/
theorem upsertHost_perm_target (t ex r : List Backend) (hnd : t.Nodup)
    (h : upsertHost ex t = some r) : r ~ t := by
  unfold upsertHost at h
  cases hrun : upsertLoop ex.length 0 ex ex.length t with
  | none =>
    rw [hrun] at h
    cases h
  | some res =>
    obtain ⟨arrF, liveF, bkF⟩ := res
    rw [hrun] at h
    injection h with h
    subst h
    have hp := upsertLoop_perm ex.length 0 ex ex.length t arrF liveF bkF
      (by omega) (le_refl _) hnd hrun
    have hmax : max 0 ex.length = ex.length := by omega
    have hmin : min 0 ex.length = 0 := by omega
    rw [hmax, hmin, List.drop_length, List.append_nil, List.take_zero,
      List.nil_append] at hp
    exact hp

open List in
/-- When every entry still to be visited occurs (with multiplicity) in
the remaining new entries, the loop matches every one of them and never
removes: the array and live length are untouched and the leftover new
entries are the list difference. -/
theorem upsertLoop_all_found (fuel : Nat) :
    ∀ (i : Nat) (arr : List Backend) (bk : List Backend),
      fuel + i = arr.length → (arr.drop i) <+~ bk →
      upsertLoop fuel i arr arr.length bk =
        some (arr, arr.length, bk.diff (arr.drop i)) := by
  induction fuel with
  | zero =>
    intro i arr bk hfi hsub
    have hi : i = arr.length := by omega
    rw [hi, List.drop_length, List.diff_nil]
    rfl
  | succ f ih =>
    intro i arr bk hfi hsub
    have hi : i < arr.length := by omega
    have hdrop : arr.drop i = arr.getD i default :: arr.drop (i + 1) :=
      drop_eq_getD_cons arr i default hi
    have hx : arr.getD i default ∈ bk := by
      apply hsub.subset
      rw [hdrop]
      exact List.mem_cons_self _ _
    have hrm := removeFirstEq_of_mem hx
    simp only [upsertLoop, hrm]
    have hsub2 : arr.drop (i + 1) <+~ bk.erase (arr.getD i default) := by
      rw [List.subperm_ext_iff] at hsub ⊢
      intro y hy
      have hcount := hsub y (by rw [hdrop]; exact List.mem_cons_of_mem _ hy)
      rw [hdrop] at hcount
      by_cases hyx : y = arr.getD i default
      · subst hyx
        rw [List.count_cons_self] at hcount
        rw [List.count_erase_self]
        omega
      · rw [List.count_cons_of_ne hyx] at hcount
        rw [List.count_erase_of_ne hyx]
        exact hcount
    rw [ih (i + 1) arr (bk.erase (arr.getD i default)) (by omega) hsub2]
    rw [hdrop, List.diff_cons]

open List in
/-- The list difference of a list by a permutation of itself is empty. -/
theorem diff_eq_nil_of_perm :
    ∀ (r t : List Backend), r ~ t → t.diff r = [] := by
  intro r
  induction r with
  | nil =>
    intro t h
    rw [List.perm_nil.mp h.symm]
    rfl
  | cons a r2 ih =>
    intro t h
    have ha : a ∈ t := h.subset (List.mem_cons_self _ _)
    rw [List.diff_cons]
    apply ih
    have h2 : a :: r2 ~ a :: t.erase a := h.trans (List.perm_cons_erase ha)
    exact h2.cons_inv

open List in
/-- Upserting a host whose entries are already a permutation of the
target is the identity: every entry matches, nothing is removed or
added. -/
theorem upsertHost_self (r t : List Backend) (hperm : r ~ t) :
    upsertHost r t = some r := by
  unfold upsertHost
  have hall := upsertLoop_all_found r.length 0 r t (by omega)
    (by rw [List.drop_zero]; exact hperm.subperm)
  rw [hall]
  rw [List.drop_zero, diff_eq_nil_of_perm r t hperm]
  simp

/-- The idempotence core: once an upsert has completed, re-running it
with the same (duplicate-free) target changes nothing. -/
theorem upsertHost_idem (ex t r : List Backend) (hnd : t.Nodup)
    (h : upsertHost ex t = some r) : upsertHost r t = some r :=
  upsertHost_self r t (upsertHost_perm_target t ex r hnd h)

/-- Unfolding one step of an association-list lookup. -/
theorem lookup_cons {β : Type} (k h : Str) (v : β) (rest : List (Str × β)) :
    ((k, v) :: rest).lookup h = if h = k then some v else rest.lookup h := by
  by_cases hk : h = k
  · have hbeq : (h == k) = true := beq_iff_eq.mpr hk
    simp only [List.lookup, hbeq, if_pos hk]
  · have hbeq : (h == k) = false := beq_false_of_ne hk
    simp only [List.lookup, hbeq, if_neg hk]

/-- A lookup succeeds exactly when the key occurs among the map's keys. -/
theorem lookup_isSome_iff {β : Type} (m : List (Str × β)) (h : Str) :
    (m.lookup h).isSome ↔ h ∈ m.map Prod.fst := by
  induction m with
  | nil =>
    show (none : Option β).isSome = true ↔ h ∈ ([] : List Str)
    simp
  | cons p rest ih =>
    obtain ⟨k, v⟩ := p
    rw [lookup_cons, List.map_cons]
    by_cases hk : h = k
    · rw [if_pos hk]
      exact iff_of_true rfl (List.mem_cons.mpr (Or.inl hk))
    · rw [if_neg hk, ih, List.mem_cons]
      exact ⟨Or.inr, fun hc => hc.resolve_left hk⟩

/-- Looking a key up after rewriting every pair with key `h` through a
value transformation. -/
theorem lookup_map_update {β : Type} (m : List (Str × β)) (h : Str)
    (g : β → β) (h2 : Str) :
    ((m.map (fun p => if p.1 = h then (p.1, g p.2) else p)).lookup h2) =
      if h2 = h then (m.lookup h).map g else m.lookup h2 := by
  induction m with
  | nil =>
    show (none : Option β) = if h2 = h then Option.map g none else none
    by_cases hh : h2 = h
    · rw [if_pos hh]
      rfl
    · rw [if_neg hh]
  | cons p rest ih =>
    obtain ⟨k, v⟩ := p
    rw [List.map_cons]
    have hhead : (if (k, v).1 = h then ((k, v).1, g (k, v).2) else (k, v)) =
        (k, if k = h then g v else v) := by
      by_cases hk : k = h
      · rw [if_pos hk, if_pos hk]
      · rw [if_neg hk, if_neg hk]
    rw [hhead, lookup_cons, lookup_cons, lookup_cons]
    by_cases h2k : h2 = k
    · rw [if_pos h2k]
      by_cases hk : k = h
      · rw [if_pos hk, if_pos (h2k.trans hk), if_pos hk.symm]
        rfl
      · have hne : ¬h2 = h := fun he => hk (h2k.symm.trans he)
        rw [if_neg hk, if_neg hne, if_pos h2k]
    · rw [if_neg h2k, ih]
      by_cases hh : h2 = h
      · have hne : ¬h = k := fun he => h2k (hh.trans he)
        rw [if_pos hh, if_pos hh, if_neg hne]
      · rw [if_neg hh, if_neg hh, if_neg h2k]

/-- Lookup in an append when the left part misses. -/
theorem lookup_append_of_none {β : Type} (m1 m2 : List (Str × β)) (h : Str)
    (hm : m1.lookup h = none) : (m1 ++ m2).lookup h = m2.lookup h := by
  induction m1 with
  | nil => rfl
  | cons p rest ih =>
    obtain ⟨k, v⟩ := p
    rw [lookup_cons] at hm
    by_cases hk : h = k
    · rw [if_pos hk] at hm
      cases hm
    · rw [if_neg hk] at hm
      rw [List.cons_append, lookup_cons, if_neg hk]
      exact ih hm

/-- Lookup in an append when the left part hits. -/
theorem lookup_append_of_some {β : Type} (m1 m2 : List (Str × β)) (h : Str)
    (v : β) (hm : m1.lookup h = some v) : (m1 ++ m2).lookup h = some v := by
  induction m1 with
  | nil => cases hm
  | cons p rest ih =>
    obtain ⟨k, w⟩ := p
    rw [lookup_cons] at hm
    rw [List.cons_append, lookup_cons]
    by_cases hk : h = k
    · rw [if_pos hk] at hm ⊢
      exact hm
    · rw [if_neg hk] at hm ⊢
      exact ih hm

/-- Lookup after a map set: the set key yields the new value, every other
key is unaffected. -/
theorem assocSet_lookup {β : Type} (m : List (Str × β)) (h h2 : Str) (v : β) :
    (assocSet m h v).lookup h2 = if h2 = h then some v else m.lookup h2 := by
  unfold assocSet
  by_cases hs : (m.lookup h).isSome
  · rw [if_pos hs]
    have h1 := lookup_map_update m h (fun _ => v) h2
    simp only [] at h1
    rw [h1]
    by_cases hh : h2 = h
    · rw [if_pos hh, if_pos hh]
      obtain ⟨w, hw⟩ := Option.isSome_iff_exists.mp hs
      rw [hw]
      rfl
    · rw [if_neg hh, if_neg hh]
  · rw [if_neg hs]
    have hnone : m.lookup h = none := Option.not_isSome_iff_eq_none.mp hs
    by_cases hh : h2 = h
    · subst hh
      rw [if_pos rfl, lookup_append_of_none m _ h2 hnone, lookup_cons,
        if_pos rfl]
    · rw [if_neg hh]
      cases hml : m.lookup h2 with
      | some w => exact lookup_append_of_some m _ h2 w hml
      | none =>
        rw [lookup_append_of_none m _ h2 hml, lookup_cons, if_neg hh]
        rfl

/-- Mapping a function that keeps first components keeps the key list. -/
theorem map_keys_of_fst {β : Type} (m : List (Str × β))
    (f : Str × β → Str × β) (hf : ∀ p, (f p).1 = p.1) :
    (m.map f).map Prod.fst = m.map Prod.fst := by
  rw [List.map_map]
  apply List.map_congr_left
  intro p _
  exact hf p

/-- Setting a key keeps the keys duplicate-free. -/
theorem assocSet_keys_nodup {β : Type} (m : List (Str × β)) (h : Str) (v : β)
    (hnd : (m.map Prod.fst).Nodup) :
    ((assocSet m h v).map Prod.fst).Nodup := by
  unfold assocSet
  by_cases hs : (m.lookup h).isSome
  · rw [if_pos hs, map_keys_of_fst]
    · exact hnd
    · intro p
      by_cases hp : p.1 = h
      · simp [hp]
      · simp [hp]
  · rw [if_neg hs, List.map_append]
    have hhk : h ∉ m.map Prod.fst := by
      rw [← lookup_isSome_iff]
      exact hs
    exact hnd.append (List.nodup_singleton _)
      (fun a ha hb => hhk ((show a = h from List.mem_singleton.mp hb) ▸ ha))

/-- Every key after a set was a key before or is the set key. -/
theorem assocSet_keys_sub {β : Type} (m : List (Str × β)) (h : Str) (v : β)
    (a : Str) (ha : a ∈ (assocSet m h v).map Prod.fst) :
    a ∈ m.map Prod.fst ∨ a = h := by
  unfold assocSet at ha
  by_cases hs : (m.lookup h).isSome
  · rw [if_pos hs, map_keys_of_fst] at ha
    · exact Or.inl ha
    · intro p
      by_cases hp : p.1 = h
      · simp [hp]
      · simp [hp]
  · rw [if_neg hs, List.map_append] at ha
    rcases List.mem_append.mp ha with ha | ha
    · exact Or.inl ha
    · right
      rw [List.map_singleton] at ha
      exact List.mem_singleton.mp ha

/-- A map by a function that fixes every element is the identity. -/
theorem map_eq_self_of {α : Type} (l : List α) (f : α → α)
    (h : ∀ x ∈ l, f x = x) : l.map f = l := by
  induction l with
  | nil => rfl
  | cons x xs ih =>
    rw [List.map_cons, h x (List.mem_cons_self _ _),
      ih (fun y hy => h y (List.mem_cons_of_mem _ hy))]

/-- With duplicate-free keys, rewriting the pairs at a key to the value
the key already holds does nothing. -/
theorem map_set_eq_self {β : Type} (m : List (Str × β)) (h : Str) (v : β)
    (hnd : (m.map Prod.fst).Nodup) (hv : m.lookup h = some v) :
    m.map (fun p => if p.1 = h then (p.1, v) else p) = m := by
  induction m with
  | nil => rfl
  | cons p rest ih =>
    obtain ⟨k, w⟩ := p
    rw [List.map_cons] at hnd
    have hnd2 : (rest.map Prod.fst).Nodup := (List.nodup_cons.mp hnd).2
    have hkrest : k ∉ rest.map Prod.fst := (List.nodup_cons.mp hnd).1
    rw [lookup_cons] at hv
    rw [List.map_cons]
    by_cases hk : k = h
    · have hw : w = v := by
        rw [if_pos hk.symm] at hv
        injection hv with hv
      have hrest : rest.map (fun p => if p.1 = h then (p.1, v) else p) = rest := by
        apply map_eq_self_of
        intro q hq
        have hqk : ¬q.1 = h := by
          intro he
          exact hkrest ((he.trans hk.symm) ▸ List.mem_map_of_mem Prod.fst hq)
        rw [if_neg hqk]
      rw [hrest]
      congr 1
      rw [if_pos hk, hw]
    · have hv2 : rest.lookup h = some v := by
        rw [if_neg (fun he => hk he.symm)] at hv
        exact hv
      have hhead : (if (k, w).1 = h then ((k, w).1, v) else (k, w)) = (k, w) := by
        rw [if_neg hk]
      rw [hhead, ih hnd2 hv2]

/-- Setting a key to the value it already holds is the identity (with
duplicate-free keys). -/
theorem assocSet_self_eq {β : Type} (m : List (Str × β)) (h : Str) (v : β)
    (hnd : (m.map Prod.fst).Nodup) (hv : m.lookup h = some v) :
    assocSet m h v = m := by
  unfold assocSet
  rw [if_pos (by rw [hv]; rfl)]
  exact map_set_eq_self m h v hnd hv

/-- With duplicate-free keys, membership determines the lookup. -/
theorem mem_lookup_of_nodup {β : Type} (m : List (Str × β))
    (p : Str × β) (hnd : (m.map Prod.fst).Nodup) (hp : p ∈ m) :
    m.lookup p.1 = some p.2 := by
  induction m with
  | nil => cases hp
  | cons q rest ih =>
    obtain ⟨k, w⟩ := q
    rcases List.mem_cons.mp hp with he | hmem
    · subst he
      rw [lookup_cons, if_pos rfl]
    · rw [List.map_cons] at hnd
      have hnd2 : (rest.map Prod.fst).Nodup := (List.nodup_cons.mp hnd).2
      have hkrest : k ∉ rest.map Prod.fst := (List.nodup_cons.mp hnd).1
      have hne : p.1 ≠ k := by
        intro he
        exact hkrest (he ▸ List.mem_map_of_mem Prod.fst hmem)
      rw [lookup_cons, if_neg hne]
      exact ih hnd2 hmem

/-- `upsertAll` leaves every host outside the configured list alone. -/
theorem upsertAll_frame (cfg : List (Str × List Backend)) :
    ∀ m m2, upsertAll m cfg = some m2 → ∀ h, h ∉ cfg.map Prod.fst →
      m2.lookup h = m.lookup h := by
  induction cfg with
  | nil =>
    intro m m2 hrun h _
    injection hrun with hrun
    rw [← hrun]
  | cons p rest ih =>
    obtain ⟨hp, tp⟩ := p
    intro m m2 hrun h hh
    simp only [upsertAll] at hrun
    cases hup : upsertHost ((m.lookup hp).getD []) tp with
    | none =>
      rw [hup] at hrun
      cases hrun
    | some r =>
      rw [hup] at hrun
      rw [List.map_cons, List.mem_cons] at hh
      push_neg at hh
      obtain ⟨h1, h2⟩ := hh
      rw [ih _ _ hrun h h2, assocSet_lookup, if_neg h1]

/-- `upsertAll` only ever creates keys from the configured list. -/
theorem upsertAll_keys_sub (cfg : List (Str × List Backend)) :
    ∀ m m2, upsertAll m cfg = some m2 →
      ∀ p ∈ m2, p.1 ∈ m.map Prod.fst ∨ p.1 ∈ cfg.map Prod.fst := by
  induction cfg with
  | nil =>
    intro m m2 hrun p hp
    injection hrun with hrun
    rw [← hrun] at hp
    exact Or.inl (List.mem_map_of_mem Prod.fst hp)
  | cons q rest ih =>
    obtain ⟨hq, tq⟩ := q
    intro m m2 hrun p hpm
    simp only [upsertAll] at hrun
    cases hup : upsertHost ((m.lookup hq).getD []) tq with
    | none =>
      rw [hup] at hrun
      cases hrun
    | some r =>
      rw [hup] at hrun
      rcases ih _ _ hrun p hpm with hin | hin
      · rcases assocSet_keys_sub m hq r p.1 hin with h1 | h1
        · exact Or.inl h1
        · right
          rw [List.map_cons, List.mem_cons]
          exact Or.inl h1
      · right
        rw [List.map_cons, List.mem_cons]
        exact Or.inr hin

/-- `upsertAll` keeps the key list duplicate-free. -/
theorem upsertAll_keys_nodup (cfg : List (Str × List Backend)) :
    ∀ m m2, (m.map Prod.fst).Nodup → upsertAll m cfg = some m2 →
      (m2.map Prod.fst).Nodup := by
  induction cfg with
  | nil =>
    intro m m2 hnd hrun
    injection hrun with hrun
    rw [← hrun]
    exact hnd
  | cons q rest ih =>
    obtain ⟨hq, tq⟩ := q
    intro m m2 hnd hrun
    simp only [upsertAll] at hrun
    cases hup : upsertHost ((m.lookup hq).getD []) tq with
    | none =>
      rw [hup] at hrun
      cases hrun
    | some r =>
      rw [hup] at hrun
      exact ih _ _ (assocSet_keys_nodup m hq r hnd) hrun

open List in
/-- After a completed `upsertAll` over a duplicate-free configured list
with duplicate-free per-host targets, every configured host's final
entry list came from its own upsert against the starting map and is a
permutation of its target. -/
theorem upsertAll_spec (cfg : List (Str × List Backend))
    (hknd : (cfg.map Prod.fst).Nodup)
    (hvnd : ∀ pt ∈ cfg, (pt.2 : List Backend).Nodup) :
    ∀ m m2, upsertAll m cfg = some m2 →
      ∀ pt ∈ cfg, ∃ r, upsertHost ((m.lookup pt.1).getD []) pt.2 = some r ∧
        m2.lookup pt.1 = some r ∧ r ~ pt.2 := by
  induction cfg with
  | nil =>
    intro m m2 _ pt hpt
    cases hpt
  | cons q rest ih =>
    obtain ⟨hq, tq⟩ := q
    rw [List.map_cons] at hknd
    have hknd2 := (List.nodup_cons.mp hknd).2
    have hqrest : (hq, tq).1 ∉ rest.map Prod.fst := (List.nodup_cons.mp hknd).1
    have hvnd2 : ∀ pt ∈ rest, (pt.2 : List Backend).Nodup :=
      fun pt2 h2 => hvnd pt2 (List.mem_cons_of_mem _ h2)
    intro m m2 hrun pt hpt
    simp only [upsertAll] at hrun
    cases hup : upsertHost ((m.lookup hq).getD []) tq with
    | none =>
      rw [hup] at hrun
      cases hrun
    | some r =>
      rw [hup] at hrun
      rcases List.mem_cons.mp hpt with he | hmem
      · subst he
        refine ⟨r, hup, ?_, ?_⟩
        · rw [upsertAll_frame rest _ _ hrun _ hqrest, assocSet_lookup,
            if_pos rfl]
        · exact upsertHost_perm_target tq _ r
            (hvnd (hq, tq) (List.mem_cons_self _ _)) hup
      · obtain ⟨r2, hup2, hlook2, hperm2⟩ :=
          ih hknd2 hvnd2 _ _ hrun pt hmem
        have hne : pt.1 ≠ hq := by
          intro he
          have hmem2 : pt.1 ∈ rest.map Prod.fst :=
            List.mem_map_of_mem Prod.fst hmem
          rw [he] at hmem2
          exact hqrest hmem2
        rw [assocSet_lookup, if_neg hne] at hup2
        exact ⟨r2, hup2, hlook2, hperm2⟩

/-- A map that already fixes every configured host (each upsert is the
identity on its current entries) is a fixed point of `upsertAll`. -/
theorem upsertAll_fix (cfg : List (Str × List Backend))
    (hknd : (cfg.map Prod.fst).Nodup) :
    ∀ m, (m.map Prod.fst).Nodup →
      (∀ pt ∈ cfg, ∃ r, m.lookup pt.1 = some r ∧ upsertHost r pt.2 = some r) →
      upsertAll m cfg = some m := by
  induction cfg with
  | nil =>
    intro m _ _
    rfl
  | cons q rest ih =>
    obtain ⟨hq, tq⟩ := q
    rw [List.map_cons] at hknd
    have hknd2 := (List.nodup_cons.mp hknd).2
    intro m hmnd hfix
    obtain ⟨r, hlook, hid⟩ := hfix (hq, tq) (List.mem_cons_self _ _)
    have hlook2 : m.lookup hq = some r := hlook
    have hid2 : upsertHost r tq = some r := hid
    simp only [upsertAll]
    rw [hlook2, Option.getD_some, hid2]
    show upsertAll (assocSet m hq r) rest = some m
    rw [assocSet_self_eq m hq r hmnd hlook2]
    exact ih hknd2 m hmnd
      (fun pt2 h2 => hfix pt2 (List.mem_cons_of_mem _ h2))

/-- Grouping keeps the host keys duplicate-free. -/
theorem groupAppend_keys_nodup (l : List (Str × Backend)) :
    ((groupAppend l).map Prod.fst).Nodup := by
  induction l with
  | nil => simp [groupAppend]
  | cons p rest ih =>
    obtain ⟨h, bkd⟩ := p
    show ((assocPrepend (groupAppend rest) h bkd).map Prod.fst).Nodup
    unfold assocPrepend
    by_cases hs : ((groupAppend rest).lookup h).isSome
    · rw [if_pos hs, map_keys_of_fst]
      · exact ih
      · intro p
        by_cases hp : p.1 = h
        · rw [if_pos hp]
        · rw [if_neg hp]
    · rw [if_neg hs, List.map_cons]
      refine List.nodup_cons.mpr ⟨?_, ih⟩
      rw [← lookup_isSome_iff]
      exact hs

/-- What grouping stores under a host: exactly the second components of
the pairs carrying that host, in order; the host key exists exactly when
at least one pair carries it. -/
theorem groupAppend_lookup (l : List (Str × Backend)) (h : Str) :
    (groupAppend l).lookup h =
      if l.filter (fun p => p.1 == h) = [] then none
      else some ((l.filter (fun p => p.1 == h)).map Prod.snd) := by
  induction l with
  | nil => simp [groupAppend]
  | cons p rest ih =>
    obtain ⟨k, bkd⟩ := p
    show (assocPrepend (groupAppend rest) k bkd).lookup h = _
    unfold assocPrepend
    by_cases hk : k = h
    · subst hk
      have hfil : ((k, bkd) :: rest).filter (fun p => p.1 == k) =
          (k, bkd) :: rest.filter (fun p => p.1 == k) := by
        rw [List.filter_cons_of_pos]
        exact beq_self_eq_true k
      by_cases hs : ((groupAppend rest).lookup k).isSome
      · rw [if_pos hs]
        have h1 := lookup_map_update (groupAppend rest) k (fun t => bkd :: t) k
        rw [if_pos rfl] at h1
        rw [h1]
        obtain ⟨w, hw⟩ := Option.isSome_iff_exists.mp hs
        rw [hw]
        rw [ih] at hw
        by_cases hfe : rest.filter (fun p => p.1 == k) = []
        · rw [if_pos hfe] at hw
          cases hw
        · rw [if_neg hfe] at hw
          injection hw with hw
          rw [hfil, if_neg (List.cons_ne_nil _ _), List.map_cons, ← hw]
          rfl
      · rw [if_neg hs, lookup_cons, if_pos rfl]
        have hnone : (groupAppend rest).lookup k = none :=
          Option.not_isSome_iff_eq_none.mp hs
        rw [ih] at hnone
        by_cases hfe : rest.filter (fun p => p.1 == k) = []
        · rw [hfil, if_neg (List.cons_ne_nil _ _), List.map_cons, hfe]
          rfl
        · rw [if_neg hfe] at hnone
          cases hnone
    · have hbeq : ((k, bkd).1 == h) = false := beq_false_of_ne hk
      have hfil : ((k, bkd) :: rest).filter (fun p => p.1 == h) =
          rest.filter (fun p => p.1 == h) := by
        rw [List.filter_cons_of_neg]
        rw [hbeq]
        exact Bool.false_ne_true
      by_cases hs : ((groupAppend rest).lookup k).isSome
      · rw [if_pos hs]
        have h1 := lookup_map_update (groupAppend rest) k (fun t => bkd :: t) h
        simp only [] at h1
        rw [h1, if_neg (fun he => hk he.symm), ih, hfil]
      · rw [if_neg hs, lookup_cons, if_neg (fun he => hk he.symm), ih, hfil]

/-- The entry a configured id produces carries that id. -/
theorem mkBackendEntry_id (parse : Str → Option URL) (c : Config) (id : Str)
    (q : Str × Backend) (h : mkBackendEntry parse c id = some q) :
    q.2.id = id := by
  simp only [mkBackendEntry] at h
  by_cases h0 : sectionUrl c id = []
  · rw [if_pos h0] at h
    cases h
  · rw [if_neg h0] at h
    cases hp : parse (ensureTrailingSlash (sectionUrl c id)) with
    | none =>
      rw [hp] at h
      cases h
    | some parsed =>
      rw [hp] at h
      replace h : (if ensureTrailingSlash (sectionUrl c id) = [] ∨
            sectionSecret c id = [] then none
          else some (parsed.host,
            ({ id := id, url := ensureTrailingSlash (sectionUrl c id),
               secret := sectionSecret c id, compat := false } : Backend))) =
          some q := h
      by_cases h2 : ensureTrailingSlash (sectionUrl c id) = [] ∨
          sectionSecret c id = []
      · rw [if_pos h2] at h
        cases h
      · rw [if_neg h2] at h
        injection h with h
        rw [← h]

open List in
/-- The ids of the entries built from an id list form a sublist of it. -/
theorem entry_ids_sublist (parse : Str → Option URL) (c : Config)
    (ids : List Str) :
    ((ids.filterMap (mkBackendEntry parse c)).map (fun q => q.2.id)) <+ ids := by
  induction ids with
  | nil => simp
  | cons id rest ih =>
    rw [List.filterMap_cons]
    cases hmk : mkBackendEntry parse c id with
    | none => exact ih.cons _
    | some q =>
      rw [List.map_cons, mkBackendEntry_id parse c id q hmk]
      exact ih.cons₂ _

/-- The configured host map has duplicate-free host keys. -/
theorem getConfiguredHosts_keys_nodup (parse : Str → Option URL) (c : Config) :
    ((getConfiguredHosts parse c).map Prod.fst).Nodup :=
  groupAppend_keys_nodup _

open List in
/-- Each configured host's entry list is duplicate-free: its entries
carry pairwise distinct ids, because the declared ids are deduplicated
and each id contributes at most one entry. -/
theorem getConfiguredHosts_values_nodup (parse : Str → Option URL) (c : Config) :
    ∀ pt ∈ getConfiguredHosts parse c, (pt.2 : List Backend).Nodup := by
  intro pt hpt
  have hlook := mem_lookup_of_nodup _ pt (getConfiguredHosts_keys_nodup parse c) hpt
  unfold getConfiguredHosts at hlook
  rw [groupAppend_lookup] at hlook
  by_cases hfe : ((getConfiguredBackendIds c).filterMap
      (mkBackendEntry parse c)).filter (fun p => p.1 == pt.1) = []
  · rw [if_pos hfe] at hlook
    cases hlook
  · rw [if_neg hfe] at hlook
    injection hlook with hlook
    have hids : (((getConfiguredBackendIds c).filterMap
        (mkBackendEntry parse c)).map (fun q => q.2.id)).Nodup := by
      apply List.Nodup.sublist (entry_ids_sublist parse c _)
      exact List.nodup_dedup _
    have hsubl : (((getConfiguredBackendIds c).filterMap
        (mkBackendEntry parse c)).filter (fun p => p.1 == pt.1)).map
          (fun q => q.2.id) <+
        ((getConfiguredBackendIds c).filterMap
          (mkBackendEntry parse c)).map (fun q => q.2.id) :=
      (List.filter_sublist _).map _
    have hfnd : ((((getConfiguredBackendIds c).filterMap
        (mkBackendEntry parse c)).filter (fun p => p.1 == pt.1)).map
          (fun q => q.2.id)).Nodup :=
      List.Nodup.sublist hsubl hids
    have hmapped : pt.2.map (fun b => b.id) =
        (((getConfiguredBackendIds c).filterMap
          (mkBackendEntry parse c)).filter (fun p => p.1 == pt.1)).map
            (fun q => q.2.id) := by
      rw [← hlook, List.map_map]
      rfl
    have hnd2 : (pt.2.map (fun b => b.id)).Nodup := by
      rw [hmapped]
      exact hfnd
    exact List.Nodup.of_map _ hnd2

/-- Evaluation of `Reload` when the snapshot lists backends. -/
theorem reload_eq_of_run (parse : Str → Option URL) (b : BackendConfiguration)
    (c : Config) (hc : c.backendsRaw ≠ []) :
    reload parse b c =
      match upsertAll (b.backends.filter
          (fun p => (((getConfiguredHosts parse c).lookup p.1).isSome : Bool)))
          (getConfiguredHosts parse c) with
      | none => none
      | some m => some { b with backends := m } := by
  simp only [reload]
  rw [if_pos hc]

/-- Claim C4: reloading twice with the identical snapshot is the same as
reloading once, for every starting registry (represented with its Go-map
invariant of duplicate-free host keys) and every snapshot.  When the
first reload completes, the second one finds every configured host
already holding a permutation of its (duplicate-free) target entries, so
each of its upserts matches every existing entry and changes nothing —
no entry is dropped or duplicated, and resolution sees the same state.
When the first reload panics, so does the composition. -/
theorem reload_idempotent (parse : Str → Option URL) (b : BackendConfiguration)
    (c : Config) (hkeys : (b.backends.map Prod.fst).Nodup) :
    (reload parse b c).bind (fun b2 => reload parse b2 c) = reload parse b c := by
  by_cases hc : c.backendsRaw = []
  · have h1 : reload parse b c = some b := by
      simp only [reload]
      rw [if_neg (fun hne => hne hc)]
    rw [h1]
    show reload parse b c = some b
    exact h1
  · have hc2 : c.backendsRaw ≠ [] := hc
    cases hrun : upsertAll (b.backends.filter
        (fun p => (((getConfiguredHosts parse c).lookup p.1).isSome : Bool)))
        (getConfiguredHosts parse c) with
    | none =>
      have h1 : reload parse b c = none := by
        rw [reload_eq_of_run parse b c hc2, hrun]
      rw [h1]
      rfl
    | some m2 =>
      have h1 : reload parse b c = some { b with backends := m2 } := by
        rw [reload_eq_of_run parse b c hc2, hrun]
      have hcfgknd := getConfiguredHosts_keys_nodup parse c
      have hcfgvnd := getConfiguredHosts_values_nodup parse c
      have hkept_nd : ((b.backends.filter
          (fun p => (((getConfiguredHosts parse c).lookup p.1).isSome : Bool))).map
            Prod.fst).Nodup :=
        List.Nodup.sublist ((List.filter_sublist _).map Prod.fst) hkeys
      have hm2nd : (m2.map Prod.fst).Nodup :=
        upsertAll_keys_nodup _ _ _ hkept_nd hrun
      have hm2keys : ∀ p ∈ m2,
          (((getConfiguredHosts parse c).lookup p.1).isSome : Bool) = true := by
        intro p hp
        rcases upsertAll_keys_sub _ _ _ hrun p hp with hk | hk
        · obtain ⟨q, hq, he⟩ := List.mem_map.mp hk
          have hcond := (List.mem_filter.mp hq).2
          rw [← he]
          exact hcond
        · rw [← lookup_isSome_iff] at hk
          exact hk
      have hfilter : m2.filter
          (fun p => (((getConfiguredHosts parse c).lookup p.1).isSome : Bool)) =
            m2 :=
        List.filter_eq_self.mpr hm2keys
      have hspec := upsertAll_spec (getConfiguredHosts parse c) hcfgknd hcfgvnd
        _ _ hrun
      have hfix : ∀ pt ∈ getConfiguredHosts parse c, ∃ r,
          m2.lookup pt.1 = some r ∧ upsertHost r pt.2 = some r := by
        intro pt hpt
        obtain ⟨r, _, hlook, hperm⟩ := hspec pt hpt
        exact ⟨r, hlook, upsertHost_self r pt.2 hperm⟩
      have hsecond := upsertAll_fix (getConfiguredHosts parse c) hcfgknd m2
        hm2nd hfix
      have h2 : reload parse { b with backends := m2 } c =
          some { b with backends := m2 } := by
        rw [reload_eq_of_run parse _ c hc2]
        have e0 : ({ b with backends := m2 } : BackendConfiguration).backends
            = m2 := rfl
        rw [e0, hfilter, hsecond]
      rw [h1]
      show reload parse { b with backends := m2 } c =
        some { b with backends := m2 }
      exact h2

/-- Witness for C4: double-reloading a concrete two-entry registry with a
one-backend snapshot equals the single reload. -/
theorem reload_idempotent_witness :
    (reload parseTable bAB cBackendsA).bind
        (fun b2 => reload parseTable b2 cBackendsA) =
      reload parseTable bAB cBackendsA :=
  reload_idempotent parseTable bAB cBackendsA (by decide)
